import Mathlib

/-
Verification of the absfs/memfs in-memory filesystem.

Paths and file names are modelled as lists of characters (Go strings are
byte slices; all names in play are ASCII).  Go pointer-linked inodes are
modelled as an inode store indexed by the inode ordinal (Go allocates
ordinals 1, 2, 3, ... and never frees them, so the store is a list whose
k-th element is the inode with ordinal k+1).  Mutation through pointers
becomes explicit store update.
-/

deriving instance DecidableEq for Except

namespace Memfs

/-! ## Path utilities (src/pathutils.go) -/

/-- Position of the first slash in a list of characters; models
`strings.Index(path, "/")` from the Go standard library (`-1` becomes
`none`). -/
def indexOfSlash : List Char → Option Nat
  | [] => none
  | c :: rest => if c = '/' then some 0 else (indexOfSlash rest).map (· + 1)

/-- Embeds `popPath` from src/pathutils.go.  `strings.TrimLeft(path, "/")`
is `dropWhile (· = '/')`; Go's `path[:x]` / `path[x+1:]` are `take` /
`drop`. -/
def popPath (p : List Char) : List Char × List Char :=
  if p = [] then ([], [])
  else if p = ['/'] then (['/'], [])
  else
    match indexOfSlash p with
    | none => (p, [])
    | some 0 => (['/'], p.dropWhile (· = '/'))
    | some (x + 1) => (p.take (x + 1), p.drop (x + 2))

/-! ## File modes (Go os.FileMode bit layout) -/

/-- Go `os.ModeDir` (bit 31 of the 32-bit FileMode). -/
def ModeDir : Nat := 2 ^ 31

/-- Go `os.ModeSymlink` (bit 27). -/
def ModeSymlink : Nat := 2 ^ 27

/-- Go `os.ModeType`: Dir, Symlink, Device, NamedPipe, Socket, CharDevice,
Irregular. -/
def ModeType : Nat :=
  ModeDir ||| ModeSymlink ||| 2 ^ 26 ||| 2 ^ 25 ||| 2 ^ 24 ||| 2 ^ 21 ||| 2 ^ 19

def mask32 : Nat := 2 ^ 32 - 1

/-- Go's `a &^ b` (AND NOT) on 32-bit FileMode values. -/
def andNot (a b : Nat) : Nat := a &&& (b ^^^ mask32)

/-- Error kinds surfaced by the store and the facade (§7 of the spec). -/
inductive Err
  | noEntry | exist | notADir | isDir | notEmpty
  | permission | badFd | eof | tooManyLinks | invalid
  deriving DecidableEq

/-! ## Inode store (src/inode.go)

A Go `*inode` is identified by its ordinal `Ino`; the store holds the
inode with ordinal `k+1` at list position `k` (ordinals are allocated
1, 2, 3, ... and never reused).  Directory entries are `(name, ordinal)`
pairs, mirroring `dirent`. -/

structure Inode where
  mode : Nat
  nlink : Nat
  dir : List (List Char × Nat)
  deriving DecidableEq

structure St where
  inodes : List Inode
  deriving DecidableEq

def getI (st : St) (i : Nat) : Option Inode :=
  match i with
  | 0 => none
  | j + 1 => st.inodes.get? j

/-- Field update of the inode with ordinal `i`; no-op when absent (a Go
pointer always refers to an allocated inode). -/
def modifyI (st : St) (i : Nat) (f : Inode → Inode) : St :=
  match i with
  | 0 => st
  | j + 1 =>
    match st.inodes.get? j with
    | some n => St.mk (st.inodes.set j (f n))
    | none => st

/-- Embeds `inode.IsDir` from src/inode.go. -/
def isDirI (n : Inode) : Bool := (n.mode &&& ModeDir) != 0

/-- Go byte-wise string comparison `<` on names. -/
def strLt : List Char → List Char → Bool
  | [], [] => false
  | [], _ :: _ => true
  | _ :: _, [] => false
  | a :: as, b :: bs => if a = b then strLt as bs else decide (a < b)

/-- Embeds `inode.find`: `sort.Search` over the sorted entry list returns
the lower-bound position, i.e. the number of entries with name `< name`. -/
def find (d : List (List Char × Nat)) (name : List Char) : Nat :=
  (d.takeWhile (fun e => strLt e.1 name)).length

/-- Go slice insertion at position `x` (the `append`/`copy` shift in
`inode.linki`). -/
def insAt (d : List (List Char × Nat)) (x : Nat) (e : List Char × Nat) :
    List (List Char × Nat) :=
  d.take x ++ e :: d.drop x

/-- Go slice deletion at position `x` (the `copy`/truncate in
`inode.unlinki`). -/
def delAt (d : List (List Char × Nat)) (x : Nat) : List (List Char × Nat) :=
  d.take x ++ d.drop (x + 1)

/-- Go `n.Dir[i] = entry` (in `inode.linkswapi`). -/
def setAt (d : List (List Char × Nat)) (x : Nat) (e : List Char × Nat) :
    List (List Char × Nat) :=
  d.take x ++ e :: d.drop (x + 1)

/-- Embeds `inode.countUp` (nlink accounting only; timestamps are not
modelled). -/
def countUp (st : St) (i : Nat) : St :=
  modifyI st i (fun n => { n with nlink := n.nlink + 1 })

/-- Embeds `inode.countDown`.  Go panics on underflow; under the link-count
invariant the count is positive, and `Nat` subtraction is used here. -/
def countDown (st : St) (i : Nat) : St :=
  modifyI st i (fun n => { n with nlink := n.nlink - 1 })

/-- Embeds `inode.linki`: insert the entry at `x`, then `countUp` the
child. -/
def linki (st : St) (dino : Nat) (x : Nat) (e : List Char × Nat) : St :=
  countUp (modifyI st dino (fun n => { n with dir := insAt n.dir x e })) e.2

/-- Embeds `inode.unlinki`: `countDown` the child at `x`, then remove the
entry. -/
def unlinki (st : St) (dino : Nat) (x : Nat) : St :=
  match getI st dino with
  | none => st
  | some n =>
    match n.dir.get? x with
    | none => st
    | some e =>
      modifyI (countDown st e.2) dino (fun m => { m with dir := delAt m.dir x })

/-- Embeds `inode.linkswapi`: `countDown` the displaced child, replace the
entry at `x`, `countUp` the new child. -/
def linkswapi (st : St) (dino : Nat) (x : Nat) (e : List Char × Nat) : St :=
  match getI st dino with
  | none => st
  | some n =>
    match n.dir.get? x with
    | none => st
    | some old =>
      countUp
        (modifyI (countDown st old.2) dino
          (fun m => { m with dir := setAt m.dir x e })) e.2

/-- Embeds `inode.Link`.  A `none` receiver cannot occur in Go (method on a
valid pointer); it is mapped to an error for totality. -/
def linkOp (st : St) (dino : Nat) (name : List Char) (cino : Nat) :
    Except Err St :=
  match getI st dino with
  | none => Except.error Err.noEntry
  | some n =>
    if ¬ isDirI n then Except.error Err.notADir
    else
      let x := find n.dir name
      match n.dir.get? x with
      | some e =>
        if e.1 = name then Except.ok (linkswapi st dino x (name, cino))
        else Except.ok (linki st dino x (name, cino))
      | none => Except.ok (linki st dino x (name, cino))

/-- Embeds `inode.Unlink`. -/
def unlinkOp (st : St) (dino : Nat) (name : List Char) : Except Err St :=
  match getI st dino with
  | none => Except.error Err.noEntry
  | some n =>
    if ¬ isDirI n then Except.error Err.notADir
    else
      let x := find n.dir name
      match n.dir.get? x with
      | some e =>
        if e.1 = name then Except.ok (unlinki st dino x)
        else Except.error Err.noEntry
      | none => Except.error Err.noEntry

/-- Link, discarding a (in the modelled call sites impossible or ignored)
error, as `memfs.Mkdir` and `iNo.newDir` do. -/
def applyLink (st : St) (dino : Nat) (name : List Char) (cino : Nat) : St :=
  match linkOp st dino name cino with
  | Except.ok s => s
  | Except.error _ => st

/-- Embeds `iNo.newFile`: allocate the next ordinal with type bits
stripped, link count 0, no entries.  Returns the new store and ordinal. -/
def newFile (st : St) (mode : Nat) : St × Nat :=
  (St.mk (st.inodes ++ [Inode.mk (andNot mode ModeType) 0 []]),
    st.inodes.length + 1)

def dotC : List Char := ['.']

def ddotC : List Char := ['.', '.']

/-- Embeds `iNo.newDir`: a fresh inode whose mode is
`ModeDir ||| (mode &^ ModeType)`, with `.` and `..` linked to itself. -/
def newDir (st : St) (mode : Nat) : St × Nat :=
  let p := newFile st mode
  let st1 := modifyI p.1 p.2
    (fun n => { n with mode := ModeDir ||| andNot mode ModeType })
  let st2 := applyLink st1 p.2 dotC p.2
  let st3 := applyLink st2 p.2 ddotC p.2
  (st3, p.2)

/-- Embeds `inode.UnlinkAll` with explicit recursion fuel (the Go
recursion has no bound; on the tree-shaped states it is called on, any
fuel at least the tree depth computes the Go result).  Iterates over the
entry list as at loop entry: skip `..`, `countDown` self-entries, recurse
then `countDown` for others; finally truncate the entry list (including
`..`, whose target is NOT counted down). -/
def unlinkAllF : Nat → St → Nat → St
  | 0, st, _ => st
  | fuel + 1, st, i =>
    let entries := match getI st i with | some n => n.dir | none => []
    let st1 := entries.foldl (fun s e =>
      if e.1 = ddotC then s
      else if e.2 = i then countDown s e.2
      else countDown (unlinkAllF fuel s e.2) e.2) st
    modifyI st1 i (fun n => { n with dir := [] })

/-! ## Path resolution (inode.resolve in src/inode.go) -/

/-- Embeds `inode.resolve` (with structural recursion fuel): head/tail
recursion over `popPath`.  A `"/"` head stays at the current inode
(callers pass the root when the path is absolute); otherwise the head is
looked up via `find` and resolution recurses into the child on a
nonempty rest.  (The Go branch returning `n` when the recursive call
yields a nil inode with nil error is unreachable, since `resolve` never
returns that pair.)  Every recursive call strictly shortens the path
(`popPath_snd_length_lt`), so any fuel exceeding the path length
computes the Go recursion exactly (`resolveF_fuel_irrel`). -/
def resolveF : Nat → St → Nat → List Char → Option Nat
  | 0, _, _, _ => none
  | fuel + 1, st, i, path =>
    if (popPath path).1 = ['/'] then
      if (popPath path).2 = [] then some i
      else resolveF fuel st i (popPath path).2
    else
      match getI st i with
      | none => none
      | some n =>
        match n.dir.get? (find n.dir (popPath path).1) with
        | some e =>
          if e.1 = (popPath path).1 then
            if (popPath path).2 = [] then some e.2
            else resolveF fuel st e.2 (popPath path).2
          else none
        | none => none

/-- `inode.resolve`: the fuelled recursion at its sufficient fuel. -/
def resolve (st : St) (i : Nat) (path : List Char) : Option Nat :=
  resolveF (path.length + 1) st i path

/-! ## Go path package (Clean, Split, Join, Dir) as used by the facade -/

/-- Go `path.IsAbs`: nonempty and starting with a slash. -/
def isAbs : List Char → Bool
  | '/' :: _ => true
  | _ => false

/-- Go `strings.TrimLeft(name, "/")`. -/
def trimSlash (p : List Char) : List Char := p.dropWhile (fun c => c = '/')

/-- The backtracking loop of Go `path.Clean` in the `..` case (with
structural recursion fuel; each iteration drops the last output
character, so fuel `out.length + 1` computes the loop exactly): shrink
the output until its last character is a slash or the `dotdot` mark is
reached. -/
def shrinkToF : Nat → List Char → Nat → List Char
  | 0, out, _ => out
  | fuel + 1, out, dotdot =>
    if dotdot < out.length ∧ out.getLast? ≠ some '/' then
      shrinkToF fuel out.dropLast dotdot
    else out

def shrinkTo (out : List Char) (dotdot : Nat) : List Char :=
  shrinkToF (out.length + 1) out dotdot

/-- The main scanning loop of Go `path.Clean` (with structural recursion
fuel; each branch consumes at least one input character, so fuel
`rem.length + 1` computes the loop exactly): `rem` is the unread input,
`out` the produced output, `dotdot` the barrier below which `..` may not
erase.  Branches mirror the Go `switch`: slash, `.` element, `..`
element, and literal segment copy. -/
def cleanRecF (rooted : Bool) : Nat → List Char → List Char → Nat → List Char
  | 0, _, out, _ => out
  | fuel + 1, rem, out, dotdot =>
    match rem with
    | [] => out
    | c :: rest =>
      if c = '/' then cleanRecF rooted fuel rest out dotdot
      else if c = '.' ∧ (rest = [] ∨ rest.head? = some '/') then
        cleanRecF rooted fuel rest out dotdot
      else if c = '.' ∧ rest.head? = some '.' ∧
          (rest.tail = [] ∨ rest.tail.head? = some '/') then
        if dotdot < out.length then
          cleanRecF rooted fuel rest.tail (shrinkTo out.dropLast dotdot) dotdot
        else if ¬ rooted then
          let out1 := (if 0 < out.length then out ++ ['/'] else out) ++ ['.', '.']
          cleanRecF rooted fuel rest.tail out1 out1.length
        else cleanRecF rooted fuel rest.tail out dotdot
      else
        let out1 := (if (rooted ∧ out.length ≠ 1) ∨ (¬ rooted ∧ out.length ≠ 0)
          then out ++ ['/'] else out) ++ (c :: rest).takeWhile (fun ch => ch ≠ '/')
        cleanRecF rooted fuel ((c :: rest).dropWhile (fun ch => ch ≠ '/')) out1 dotdot

/-- Go `path.Clean`. -/
def clean (p : List Char) : List Char :=
  if p = [] then ['.']
  else
    let res := if p.head? = some '/' then cleanRecF true p.length p.tail ['/'] 1
               else cleanRecF false (p.length + 1) p [] 0
    if res = [] then ['.'] else res

/-- Go `strings.LastIndex(path, "/")`, via a scan of the reversal. -/
def lastIndexSlash (p : List Char) : Option Nat :=
  (indexOfSlash p.reverse).map (fun k => p.length - 1 - k)

/-- Go `path.Split`: everything up to and including the final slash,
paired with the remainder. -/
def splitPath (p : List Char) : List Char × List Char :=
  match lastIndexSlash p with
  | none => ([], p)
  | some i => (p.take (i + 1), p.drop (i + 1))

/-- Go `path.Dir`. -/
def dirPath (p : List Char) : List Char := clean (splitPath p).1

/-- Go `path.Join` restricted to two elements (the only arity the facade
uses): empty elements are skipped, the result is cleaned. -/
def joinPath (a b : List Char) : List Char :=
  if a = [] ∧ b = [] then []
  else if a = [] then clean b
  else if b = [] then clean a
  else clean (a ++ '/' :: b)

/-- Embeds `abs` from src/pathutils.go; `inode.Abs` called by the facade
behaves identically (absolute names are returned verbatim, relative ones
joined onto the cwd). -/
def absG (cwd name : List Char) : List Char :=
  if isAbs name then name else joinPath cwd name

/-! ## Filesystem facade (src/memfs.go) -/

/-- Open-flag constants, Go `os` package values. -/
def O_RDONLY : Nat := 0

def O_WRONLY : Nat := 1

def O_RDWR : Nat := 2

/-- Modelled from the spec: `absfs.O_ACCESS` is the mask selecting the
access mode (one of read-only, write-only, read-write), i.e. the two low
bits. -/
def O_ACCESS : Nat := 3

def O_CREATE : Nat := 64

def O_EXCL : Nat := 128

def O_TRUNC : Nat := 512

/-- Modelled from the spec: `absfs.OS_ALL_R` is the set of all read
permission bits ("read-only open requires any read bit set in mode"). -/
def OS_ALL_R : Nat := 0o444

/-- Modelled from the spec: `absfs.OS_ALL_W` is the set of all write
permission bits. -/
def OS_ALL_W : Nat := 0o222

/-- Modelled from the spec: `github.com/absfs/inode.Ino.New`, the
facade's inode allocator (the package is not part of these sources).
Per §4.E the symlink operation "creates a new inode with the symlink
type bit set" and the open path gives the new inode "mode perm & ~umask"
as computed by the caller, so the allocator stores the supplied mode
verbatim with link count 0 and no entries. -/
def inoNew (st : St) (mode : Nat) : St × Nat :=
  (St.mk (st.inodes ++ [Inode.mk mode 0 []]), st.inodes.length + 1)

/-- Modelled from the spec: `github.com/absfs/inode.Ino.NewDir` "sets
directory type bit; self-links `.` and `..` to self initially" (§4.B
new_dir). -/
def inoNewDir (st : St) (mode : Nat) : St × Nat :=
  let p := inoNew st mode
  let st1 := modifyI p.1 p.2 (fun n => { n with mode := ModeDir ||| mode })
  let st2 := applyLink st1 p.2 dotC p.2
  let st3 := applyLink st2 p.2 ddotC p.2
  (st3, p.2)

/-- Filesystem state: umask, cwd path and directory ordinal, the inode
store, the symlink target table, and the `fs.data` buffer slice indexed
by ordinal.  The root ordinal is always 1 (`fs.root` is set once in
`NewFS` and never reassigned). -/
structure FS where
  umask : Nat
  cwd : List Char
  dirIno : Nat
  st : St
  symlinks : List (Nat × List Char)
  data : List (List Nat)
  deriving DecidableEq

/-- Go map read `fs.symlinks[ino]`: the zero value (empty string) when
absent. -/
def symGet (tab : List (Nat × List Char)) (i : Nat) : List Char :=
  match tab.lookup i with
  | some t => t
  | none => []

/-- Embeds `NewFS`: umask 0755, root directory inode (ordinal 1), cwd
`/`, two empty data slots. -/
def NewFS : FS :=
  let p := inoNewDir (St.mk []) 0o755
  FS.mk 0o755 ['/'] p.2 p.1 [] [[], []]

def dataAt (fs : FS) (i : Nat) : List Nat := fs.data.getD i []

def setData (d : List (List Nat)) (i : Nat) (v : List Nat) :
    List (List Nat) := d.set i v

/-- Per-open handle state (src/inode.go `File`): flags, the inode
ordinal (`none` after `Close` sets `f.node = nil`), the handle's private
byte buffer, the byte offset and the directory-enumeration cursor. -/
structure FileH where
  flags : Nat
  node : Option Nat
  data : List Nat
  offset : Int
  diroffset : Nat
  deriving DecidableEq

def modeAt (st : St) (i : Nat) : Nat :=
  match getI st i with
  | some n => n.mode
  | none => 0

def isDirAt (st : St) (i : Nat) : Bool :=
  match getI st i with
  | some n => isDirI n
  | none => false

def dirAt (st : St) (i : Nat) : List (List Char × Nat) :=
  match getI st i with
  | some n => n.dir
  | none => []

/-- The permission test of `OpenFile` (memfs.go lines 187-192). -/
def permDenied (st : St) (node access : Nat) : Bool :=
  let m := modeAt st node
  decide ((access = O_RDONLY ∧ m &&& OS_ALL_R = 0) ∨
    (access = O_WRONLY ∧ m &&& OS_ALL_W = 0) ∨
    (access = O_RDWR ∧ m &&& (OS_ALL_W ||| OS_ALL_R) = 0))

/-- Embeds `FileSystem.OpenFile`.  On the create path the new inode is
allocated with mode `fs.Umask & perm` even when the subsequent `Link`
fails (the ordinal counter has advanced); `fs.data` gains a slot only on
success, as in the Go code. -/
def OpenFile (fs : FS) (name : List Char) (flag perm : Nat) :
    FS × Except Err FileH :=
  if name = ['/'] then
    (fs, Except.ok (FileH.mk flag (some 1) (dataAt fs 1) 0 0))
  else if name = ['.'] then
    (fs, Except.ok (FileH.mk flag (some fs.dirIno) (dataAt fs fs.dirIno) 0 0))
  else
    let wd := if isAbs name then 1 else fs.dirIno
    let found := resolve fs.st wd name
    let dir := clean (splitPath name).1
    let filename := (splitPath name).2
    match resolve fs.st wd dir with
    | none => (fs, Except.error Err.noEntry)
    | some parent =>
      let access := flag &&& O_ACCESS
      let create := flag &&& O_CREATE ≠ 0
      let truncate := flag &&& O_TRUNC ≠ 0
      match found with
      | some node =>
        if create ∧ flag &&& O_EXCL ≠ 0 then (fs, Except.error Err.exist)
        else if isDirAt fs.st node ∧ (access ≠ O_RDONLY ∨ truncate) then
          (fs, Except.error Err.isDir)
        else
          let fs1 := if truncate then
            { fs with data := setData fs.data node [] } else fs
          if ¬ create ∧ permDenied fs1.st node access then
            (fs1, Except.error Err.permission)
          else (fs1, Except.ok (FileH.mk flag (some node) (dataAt fs1 node) 0 0))
      | none =>
        if ¬ create then (fs, Except.error Err.noEntry)
        else
          let p := inoNew fs.st (fs.umask &&& perm)
          match linkOp p.1 parent filename p.2 with
          | Except.error e => ({ fs with st := p.1 }, Except.error e)
          | Except.ok st2 =>
            ({ fs with st := st2, data := fs.data ++ [[]] },
              Except.ok (FileH.mk flag (some p.2) [] 0 0))

/-- Embeds `FileSystem.Create`: `OpenFile(name, O_CREATE|O_RDWR|O_TRUNC, 0644)`. -/
def CreateF (fs : FS) (name : List Char) : FS × Except Err FileH :=
  OpenFile fs name (O_CREATE ||| O_RDWR ||| O_TRUNC) 0o644

/-- Embeds `FileSystem.Mkdir`: existence check on `name` from `wd`, parent
lookup on the cleaned directory part of the absolutized path, then
`NewDir(fs.Umask & perm)`, `parent.Link(filename, child)` and
`child.Link("..", parent)` (both return values discarded by the Go code),
and a fresh data slot. -/
def Mkdir (fs : FS) (name : List Char) (perm : Nat) : FS × Except Err Unit :=
  let wd := if isAbs name then 1 else fs.dirIno
  let abs1 := if isAbs name then name else joinPath fs.cwd name
  match resolve fs.st wd name with
  | some _ => (fs, Except.error Err.exist)
  | none =>
    let dir := clean (splitPath abs1).1
    let filename := (splitPath abs1).2
    let parentR := if dir = ['/'] then some 1
                   else resolve fs.st 1 (trimSlash dir)
    match parentR with
    | none => (fs, Except.error Err.noEntry)
    | some parent =>
      let p := inoNewDir fs.st (fs.umask &&& perm)
      let st2 := applyLink p.1 parent filename p.2
      let st3 := applyLink st2 p.2 ddotC parent
      ({ fs with st := st3, data := fs.data ++ [[]] }, Except.ok ())

/-- Embeds `FileSystem.Remove`: resolves the target, rejects directories
whose raw entry list is nonempty (`len(child.Dir) > 0`), then unlinks the
basename from the parent. -/
def Remove (fs : FS) (name : List Char) : FS × Except Err Unit :=
  let wd := if isAbs name then 1 else fs.dirIno
  let abs1 := if isAbs name then name else joinPath fs.cwd name
  match resolve fs.st wd name with
  | none => (fs, Except.error Err.noEntry)
  | some child =>
    if isDirAt fs.st child ∧ 0 < (dirAt fs.st child).length then
      (fs, Except.error Err.notEmpty)
    else
      let dir := clean (splitPath abs1).1
      let filename := (splitPath abs1).2
      let parentR := if dir = ['/'] then some 1
                     else resolve fs.st 1 (trimSlash dir)
      match parentR with
      | none => (fs, Except.error Err.noEntry)
      | some parent =>
        match unlinkOp fs.st parent filename with
        | Except.ok st2 => ({ fs with st := st2 }, Except.ok ())
        | Except.error e => (fs, Except.error e)

/-- Embeds `FileSystem.Symlink`.  An existing non-symlink `newname` is
`EEXIST`; `oldname` is resolved and a failure is `ENOENT` (the target
must exist); an existing symlink is retargeted in place; otherwise a new
inode with `oldNode.Mode | ModeSymlink` is allocated, linked under the
basename of `newname`, and the verbatim `oldname` recorded in the
table. -/
def Symlink (fs : FS) (oldname newname : List Char) : FS × Except Err Unit :=
  let wd := if isAbs newname then 1 else fs.dirIno
  match resolve fs.st wd newname with
  | some newNode =>
    if modeAt fs.st newNode &&& ModeSymlink = 0 then
      (fs, Except.error Err.exist)
    else
      match resolve fs.st wd oldname with
      | none => (fs, Except.error Err.noEntry)
      | some oldNode =>
        let om := modeAt fs.st oldNode
        ({ fs with
            st := modifyI fs.st newNode
              (fun n => { n with mode := om ||| ModeSymlink })
            symlinks := (newNode, oldname) :: fs.symlinks },
          Except.ok ())
  | none =>
    match resolve fs.st wd oldname with
    | none => (fs, Except.error Err.noEntry)
    | some oldNode =>
      let om := modeAt fs.st oldNode
      let dir := clean (splitPath newname).1
      let filename := (splitPath newname).2
      match resolve fs.st wd dir with
      | none => (fs, Except.error Err.noEntry)
      | some parent =>
        let p := inoNew fs.st (om ||| ModeSymlink)
        match linkOp p.1 parent filename p.2 with
        | Except.error e => ({ fs with st := p.1 }, Except.error e)
        | Except.ok st2 =>
          ({ fs with
              st := st2
              symlinks := (p.2, oldname) :: fs.symlinks }, Except.ok ())

/-- Embeds `FileSystem.Readlink`: resolve (root-relative after trimming
leading slashes) and return the symlink-table entry for the ordinal —
the map's zero value (empty string) and no error when the inode is not
in the table. -/
def Readlink (fs : FS) (name : List Char) : Except Err (List Char) :=
  if name = ['/'] then Except.ok (symGet fs.symlinks 1)
  else
    match resolve fs.st 1 (trimSlash name) with
    | none => Except.error Err.noEntry
    | some node => Except.ok (symGet fs.symlinks node)

/-- Embeds `FileSystem.Chmod`: the resolved inode's mode is assigned the
argument wholesale (`node.Mode = mode`), with no umask masking and no
preservation of type bits. -/
def Chmod (fs : FS) (name : List Char) (mode : Nat) : FS × Except Err Unit :=
  let abs1 := absG fs.cwd name
  if abs1 = ['/'] then
    ({ fs with st := modifyI fs.st 1 (fun n => { n with mode := mode }) },
      Except.ok ())
  else
    match resolve fs.st 1 (trimSlash abs1) with
    | none => (fs, Except.error Err.noEntry)
    | some node =>
      ({ fs with st := modifyI fs.st node (fun n => { n with mode := mode }) },
        Except.ok ())

/-- Embeds `FileSystem.fileStat` with explicit recursion fuel: the Go
function recurses unconditionally on symlinks (`// TODO: Avoid cyclical
links`) with no depth budget, so `none` at every fuel means the Go
recursion never returns.  `some none` is an error return, `some (some i)`
success. -/
def fileStatN : Nat → FS → List Char → List Char → Option (Option Nat)
  | 0, _, _, _ => none
  | fuel + 1, fs, cwd, name =>
    let name1 := absG cwd name
    match resolve fs.st 1 (trimSlash name1) with
    | none => some none
    | some node =>
      if modeAt fs.st node &&& ModeSymlink = 0 then some (some node)
      else fileStatN fuel fs (dirPath name1) (symGet fs.symlinks node)

/-! ## File handle operations (the File methods in src/inode.go) -/

/-- Result of a file-handle operation: success, a Go error value, or a
runtime panic (nil-pointer dereference / slice bounds violation). -/
inductive PRes (α : Type)
  | ok (a : α)
  | err (e : Err)
  | panicked
  deriving DecidableEq

/-- Embeds `File.Read`.  The magic flag constant 3712 short-circuits to
EOF; a closed handle (`f.node = nil`) panics at `f.node.IsDir()`; reads
past the end are EOF; write-only handles get EBADF; otherwise up to
`plen` bytes are copied from the offset, which advances by the count. -/
def fread (fs : FS) (f : FileH) (plen : Nat) : PRes (List Nat) × FileH :=
  if f.flags = 3712 then (PRes.err Err.eof, f)
  else
    match f.node with
    | none => (PRes.panicked, f)
    | some i =>
      if isDirAt fs.st i then (PRes.err Err.isDir, f)
      else if (f.data.length : Int) ≤ f.offset then (PRes.err Err.eof, f)
      else if f.flags &&& O_ACCESS = O_WRONLY then (PRes.err Err.badFd, f)
      else if f.offset < 0 then (PRes.panicked, f)
      else
        let chunk := (f.data.drop f.offset.toNat).take plen
        (PRes.ok chunk, { f with offset := f.offset + chunk.length })

/-- Embeds `File.Write`: EBADF on read-only handles; grows the handle's
private buffer to `offset + len(p)` zero-filling the gap, splices `p` in
at the offset, and advances the offset.  The inode reference is never
consulted, so a closed handle writes successfully. -/
def fwrite (f : FileH) (p : List Nat) : PRes Nat × FileH :=
  if f.flags &&& O_ACCESS = O_RDONLY then (PRes.err Err.badFd, f)
  else if f.offset < 0 then (PRes.panicked, f)
  else
    let off := f.offset.toNat
    let size := p.length + off
    let base := if f.data.length < size then
      f.data ++ List.replicate (size - f.data.length) 0 else f.data
    let newdata := base.take off ++ p ++ base.drop (off + p.length)
    (PRes.ok p.length,
      { f with data := newdata, offset := f.offset + p.length })

/-- Embeds `File.Sync`: a no-op for read-only handles, else writes the
handle's buffer back to `fs.data` at the inode ordinal (dereferencing
`f.node`). -/
def fsync (fs : FS) (f : FileH) : PRes Unit × FS :=
  if f.flags &&& O_ACCESS = O_RDONLY then (PRes.ok (), fs)
  else
    match f.node with
    | none => (PRes.panicked, fs)
    | some i => (PRes.ok (), { fs with data := setData fs.data i f.data })

/-- Embeds `File.Close`: `Sync`, then clear the node reference.  No
closed-handle flag is kept anywhere else. -/
def fclose (fs : FS) (f : FileH) : PRes Unit × FS × FileH :=
  match fsync fs f with
  | (PRes.ok _, fs1) => (PRes.ok (), fs1, { f with node := none })
  | (PRes.err e, fs1) => (PRes.err e, fs1, f)
  | (PRes.panicked, fs1) => (PRes.panicked, fs1, f)

/-- Embeds `File.Seek` (whence 0 start, 1 current, 2 end); a negative
result is clamped to 0; never fails. -/
def fseek (f : FileH) (offset : Int) (whence : Nat) : PRes Int × FileH :=
  let off1 := if whence = 0 then offset
    else if whence = 1 then f.offset + offset
    else if whence = 2 then (f.data.length : Int) + offset
    else f.offset
  let off2 := if off1 < 0 then 0 else off1
  (PRes.ok off2, { f with offset := off2 })

/-- Embeds `File.Truncate` on the handle's private buffer. -/
def ftruncate (f : FileH) (size : Int) : PRes Unit × FileH :=
  if f.flags &&& O_ACCESS = O_RDONLY then (PRes.err Err.permission, f)
  else if size < 0 then (PRes.panicked, f)
  else
    let sz := size.toNat
    if sz ≤ f.data.length then (PRes.ok (), { f with data := f.data.take sz })
    else (PRes.ok (),
      { f with data := f.data ++ List.replicate (sz - f.data.length) 0 })

/-- Embeds `File.Readdir` (src/inode.go lines 346-366), returning the
entries instead of FileInfo views.  Faithful to the Go arithmetic: after
the EOF test, `n < 1` is replaced by the entry count, the returned slice
is `dirs[diroffset:n]` and the cursor advances by `n` — NOT by the number
of entries returned.  `make([]os.FileInfo, n-diroffset)` with a negative
length and slicing beyond the entry slice both panic. -/
def freaddir (fs : FS) (f : FileH) (n : Int) :
    PRes (List (List Char × Nat)) × FileH :=
  if f.flags &&& O_ACCESS = O_WRONLY then (PRes.err Err.permission, f)
  else
    match f.node with
    | none => (PRes.panicked, f)
    | some i =>
      if ¬ isDirAt fs.st i then (PRes.err Err.notADir, f)
      else
        let dirs := dirAt fs.st i
        if dirs.length ≤ f.diroffset then (PRes.err Err.eof, f)
        else
          let n1 : Int := if n < 1 then (dirs.length : Int) else n
          if n1 < (f.diroffset : Int) then (PRes.panicked, f)
          else
            let n2 := n1.toNat
            if dirs.length < n2 then (PRes.panicked, f)
            else
              (PRes.ok ((dirs.take n2).drop f.diroffset),
                { f with diroffset := f.diroffset + n2 })

/-! ## Link-count accounting (for the conservation invariant) -/

/-- Number of entries in a directory list that refer to ordinal `c`. -/
def cnt (d : List (List Char × Nat)) (c : Nat) : Nat :=
  (d.filter (fun e => e.2 = c)).length

/-- Total number of directory entries in the store referring to `c`. -/
def entryCountL : List Inode → Nat → Nat
  | [], _ => 0
  | n :: t, c => cnt n.dir c + entryCountL t c

def entryCount (st : St) (c : Nat) : Nat := entryCountL st.inodes c

/-- Link-count conservation: every inode's link count equals the number
of directory entries referring to it, and every entry refers to an
allocated ordinal. -/
def Inv (st : St) : Prop :=
  (∀ i m, getI st i = some m → m.nlink = entryCount st i) ∧
  (∀ n, n ∈ st.inodes → ∀ e, e ∈ n.dir → 1 ≤ e.2 ∧ e.2 ≤ st.inodes.length)

/-- Executable check for `Inv` (used to establish it on concrete
states). -/
def invCheck (st : St) : Bool :=
  (List.range st.inodes.length).all (fun k =>
    match st.inodes.get? k with
    | some n => (decide (n.nlink = entryCount st (k + 1))) &&
        n.dir.all (fun e => decide (1 ≤ e.2) && decide (e.2 ≤ st.inodes.length))
    | none => true)

/-- The directory-mutating operations of the claim, at the inode-store
level: facade `Mkdir` (guarded on an existing parent, as the facade
resolves the parent first), inode allocation, `inode.Link` (guarded on an
existing child — Go passes a pointer to an allocated inode), and
`inode.Unlink`. -/
inductive SOp where
  | mkdir (parent : Nat) (name : List Char) (perm : Nat)
  | alloc (mode : Nat)
  | link (dino : Nat) (name : List Char) (cino : Nat)
  | unlink (dino : Nat) (name : List Char)

/-- One step of the operation model.  `mkdir` is the creation sequence of
`FileSystem.Mkdir`: `newDir`, `parent.Link(name, child)`,
`child.Link("..", parent)` (link errors discarded as in the Go code). -/
def stepOp (st : St) : SOp → St
  | SOp.alloc mode => (newFile st mode).1
  | SOp.mkdir parent name perm =>
    match getI st parent with
    | none => st
    | some _ =>
      let p := newDir st perm
      let st2 := applyLink p.1 parent name p.2
      applyLink st2 p.2 ddotC parent
  | SOp.link dino name cino =>
    match getI st cino with
    | none => st
    | some _ => applyLink st dino name cino
  | SOp.unlink dino name =>
    match unlinkOp st dino name with
    | Except.ok s => s
    | Except.error _ => st

/-- The store of a fresh filesystem at the inode level: a root directory
(ordinal 1) created by `newDir` with the default umask, as `NewFS`
does. -/
def rootSt : St := (newDir (St.mk []) 0o755).1

/-! ## Concrete states used by the claims -/

/-- A fresh filesystem with one directory `mkdir("/d", 0777)`. -/
def fsD : FS := (Mkdir NewFS ['/', 'd'] 0o777).1

/-- A fresh filesystem after `create("/f")`. -/
def fsF : FS := (CreateF NewFS ['/', 'f']).1

def linkNm : List Char := ['/', 'l', 'i', 'n', 'k']

/-- `fsF` after `symlink("/f", "/link")`: inode 3 is a symlink whose
recorded target is `/f`. -/
def fsLink : FS := (Symlink fsF ['/', 'f'] linkNm).1

/-- `fsLink` after `symlink("/link", "/link")`: the existing-symlink
branch retargets inode 3 to the literal string `/link`, producing a
self-cycle. -/
def fsCycle : FS := (Symlink fsLink linkNm linkNm).1

/-- The handle returned by `Open("/")` on `fsF` (read-only, root inode). -/
def hRootF : FileH :=
  match (OpenFile fsF ['/'] O_RDONLY 0).2 with
  | Except.ok h => h
  | Except.error _ => FileH.mk 0 none [] 0 0

/-- A fresh filesystem after `create("/g")` and the handle it returned. -/
def fsG : FS := (CreateF NewFS ['/', 'g']).1

def hG : FileH :=
  match (CreateF NewFS ['/', 'g']).2 with
  | Except.ok h => h
  | Except.error _ => FileH.mk 0 none [] 0 0

/-- The handle `hG` after `Close` (node reference cleared). -/
def hGc : FileH := (fclose fsG hG).2.2

/-- `mkdir("/d")` then `RemoveAll("/d")` at the store level:
`UnlinkAll` on the directory followed by `Unlink` from the root, as
`FileSystem.RemoveAll` performs. -/
def cexSt : St :=
  let st1 := stepOp rootSt (SOp.mkdir 1 ['d'] 0o755)
  let st2 := unlinkAllF 2 st1 2
  match unlinkOp st2 1 ['d'] with
  | Except.ok s => s
  | Except.error _ => st2

/-! ## Path-splitting lemmas -/

theorem indexOfSlash_eq_none_iff (l : List Char) :
    indexOfSlash l = none ↔ '/' ∉ l := by
  induction l with
  | nil => simp [indexOfSlash]
  | cons c rest ih =>
    by_cases h : c = '/'
    · simp [indexOfSlash, h]
    · simp only [indexOfSlash, if_neg h, Option.map_eq_none', ih,
        List.mem_cons, not_or]
      exact ⟨fun hn => ⟨fun he => h he.symm, hn⟩, fun hp => hp.2⟩

theorem indexOfSlash_take_drop (l : List Char) :
    ∀ x, indexOfSlash l = some x →
      l.take x = l.takeWhile (fun c => c ≠ '/') ∧
      l.drop x = l.dropWhile (fun c => c ≠ '/') ∧
      ∃ rest, l.drop x = '/' :: rest := by
  induction l with
  | nil => intro x h; simp [indexOfSlash] at h
  | cons c rest ih =>
    intro x h
    by_cases hc : c = '/'
    · have hx : x = 0 := by
        simp [indexOfSlash, hc] at h; omega
      subst hx
      refine ⟨?_, ?_, rest, ?_⟩
      · simp [List.takeWhile_cons, hc]
      · simp [List.dropWhile_cons, hc]
      · simp [hc]
    · have h' : ∃ y, indexOfSlash rest = some y ∧ x = y + 1 := by
        simp only [indexOfSlash, if_neg hc, Option.map_eq_some'] at h
        obtain ⟨y, hy, hxy⟩ := h
        exact ⟨y, hy, hxy.symm⟩
      obtain ⟨y, hy, hxy⟩ := h'
      subst hxy
      obtain ⟨h1, h2, r, hr⟩ := ih y hy
      refine ⟨?_, ?_, r, ?_⟩
      · rw [List.take_succ_cons, h1, List.takeWhile_cons]
        simp [hc]
      · rw [List.drop_succ_cons, h2, List.dropWhile_cons]
        simp [hc]
      · rw [List.drop_succ_cons, hr]

/-- C9.  The path-splitting function `popPath` satisfies the head/rest
characterization from the spec: `("", "")` on the empty string, for a
path starting with `/` the head is `"/"` and the rest is the path with
all leading slashes trimmed (which covers `popPath "/" = ("/", "")`),
for a slash-free path the head is the whole path with empty rest, and
otherwise the head is the segment before the first slash and the rest is
the remainder after it. -/
theorem popPath_spec (p : List Char) :
    popPath p =
      if p = [] then ([], [])
      else if p.head? = some '/' then (['/'], p.dropWhile (fun c => c = '/'))
      else if '/' ∈ p then
        (p.takeWhile (fun c => c ≠ '/'), (p.dropWhile (fun c => c ≠ '/')).drop 1)
      else (p, []) := by
  match p with
  | [] => rfl
  | c :: rest =>
    by_cases hc : c = '/'
    · subst hc
      by_cases hr : rest = []
      · subst hr; rfl
      · have hne : ('/' : Char) :: rest ≠ ['/'] := by
          intro h; exact hr (List.cons.injEq .. ▸ h).2
        simp only [popPath, if_neg (List.cons_ne_nil _ _), if_neg hne,
          indexOfSlash, if_pos rfl]
        simp
    · have hne1 : c :: rest ≠ [] := List.cons_ne_nil _ _
      have hne2 : c :: rest ≠ ['/'] := by
        intro h; exact hc (List.cons.injEq .. ▸ h).1
      have hhead : ¬ (c :: rest).head? = some '/' := by
        simp [hc]
      rcases hidx : indexOfSlash rest with _ | x
      · have hmem : ¬ '/' ∈ c :: rest := by
          have := (indexOfSlash_eq_none_iff rest).mp hidx
          simp only [List.mem_cons, not_or]
          exact ⟨fun he => hc he.symm, this⟩
        simp only [popPath, if_neg hne1, if_neg hne2, indexOfSlash,
          if_neg hc, hidx]
        simp only [Option.map_none', if_neg hne1, if_neg hhead,
          if_neg hmem]
      · obtain ⟨h1, h2, r, hr⟩ := indexOfSlash_take_drop rest x hidx
        have hmem : '/' ∈ c :: rest := by
          have : '/' ∈ rest := by
            by_contra hfalse
            rw [(indexOfSlash_eq_none_iff rest).mpr hfalse] at hidx
            exact Option.noConfusion hidx
          exact List.mem_cons_of_mem _ this
        simp only [popPath, if_neg hne1, if_neg hne2, indexOfSlash,
          if_neg hc, hidx, Option.map_some']
        simp only [if_neg hne1, if_neg hhead, if_pos hmem]
        have htw : (c :: rest).takeWhile (fun ch => ch ≠ '/') =
            c :: rest.takeWhile (fun ch => ch ≠ '/') := by
          rw [List.takeWhile_cons]; simp [hc]
        have hdw : (c :: rest).dropWhile (fun ch => ch ≠ '/') =
            rest.dropWhile (fun ch => ch ≠ '/') := by
          rw [List.dropWhile_cons]; simp [hc]
        rw [htw, hdw, ← h1, ← h2, hr]
        have hkey : List.drop (x + 1) rest = r := by
          have h3 := List.drop_drop 1 x rest
          rw [hr] at h3
          simpa [Nat.add_comm] using h3.symm
        simp [List.take_succ_cons, List.drop_succ_cons, hkey]

theorem length_dropWhile_le_self (q : Char → Bool) (l : List Char) :
    (l.dropWhile q).length ≤ l.length := by
  induction l with
  | nil => simp
  | cons a t ih =>
    rw [List.dropWhile_cons]
    split
    · exact le_trans ih (Nat.le_succ _)
    · exact le_refl _

theorem popPath_snd_length_lt (p : List Char) (h : (popPath p).2 ≠ []) :
    (popPath p).2.length < p.length := by
  match p with
  | [] => simp [popPath] at h
  | c :: rest =>
    by_cases hc : c = '/'
    · subst hc
      by_cases hr : rest = []
      · subst hr; simp [popPath] at h
      · have hne : ('/' : Char) :: rest ≠ ['/'] := by
          intro hh; exact hr (List.cons.injEq .. ▸ hh).2
        simp only [popPath, if_neg (List.cons_ne_nil _ _), if_neg hne,
          indexOfSlash, if_pos rfl] at h ⊢
        rw [List.dropWhile_cons]
        simp only [decide_True, if_true, List.length_cons]
        have := length_dropWhile_le_self (fun ch => ch = '/') rest
        omega
    · have hne1 : c :: rest ≠ [] := List.cons_ne_nil _ _
      have hne2 : c :: rest ≠ ['/'] := by
        intro hh; exact hc (List.cons.injEq .. ▸ hh).1
      rcases hidx : indexOfSlash rest with _ | x
      · have hsnd : (popPath (c :: rest)).2 = [] := by
          simp [popPath, indexOfSlash, hc, hidx]
        exact absurd hsnd h
      · simp only [popPath, if_neg hne1, if_neg hne2, indexOfSlash,
          if_neg hc, hidx, Option.map_some'] at h ⊢
        simp only [List.length_cons, List.length_drop]
        omega

/-- Fuel beyond the path length does not affect `resolveF`, so `resolve`
computes the fixpoint of the Go recursion. -/
theorem resolveF_fuel_irrel :
    ∀ f1 f2 st i path, path.length < f1 → path.length < f2 →
      resolveF f1 st i path = resolveF f2 st i path := by
  intro f1
  induction f1 with
  | zero => intro f2 st i path h1 _; exact absurd h1 (Nat.not_lt_zero _)
  | succ a ih =>
    intro f2 st i path h1 h2
    match f2 with
    | 0 => exact absurd h2 (Nat.not_lt_zero _)
    | b + 1 =>
      show resolveF (a + 1) st i path = resolveF (b + 1) st i path
      simp only [resolveF]
      by_cases hroot : (popPath path).1 = ['/']
      · simp only [if_pos hroot]
        by_cases hnil : (popPath path).2 = []
        · simp [hnil]
        · have hlt := popPath_snd_length_lt path hnil
          simp only [if_neg hnil]
          exact ih b st i (popPath path).2 (by omega) (by omega)
      · simp only [if_neg hroot]
        match getI st i with
        | none => rfl
        | some n =>
          simp only
          match n.dir.get? (find n.dir (popPath path).1) with
          | none => rfl
          | some e =>
            simp only
            by_cases he : e.1 = (popPath path).1
            · simp only [if_pos he]
              by_cases hnil : (popPath path).2 = []
              · simp [hnil]
              · have hlt := popPath_snd_length_lt path hnil
                simp only [if_neg hnil]
                exact ih b st e.2 (popPath path).2 (by omega) (by omega)
            · simp [he]

/-! ## Store-update algebra -/

theorem get?_set_self {a : Type} (l : List a) (j : Nat) (x : a) :
    (l.set j x).get? j = (l.get? j).map (fun _ => x) := by
  induction l generalizing j with
  | nil => simp
  | cons y t ih =>
    cases j with
    | zero => simp
    | succ m => simpa using ih m

theorem get?_set_ne {a : Type} (l : List a) (i j : Nat) (x : a)
    (h : i ≠ j) : (l.set i x).get? j = l.get? j := by
  induction l generalizing i j with
  | nil => simp
  | cons y t ih =>
    cases i with
    | zero =>
      cases j with
      | zero => exact absurd rfl h
      | succ m => simp
    | succ p =>
      cases j with
      | zero => simp
      | succ m => simpa using ih p m (by omega)

theorem getI_succ (st : St) (j : Nat) : getI st (j + 1) = st.inodes.get? j :=
  rfl

theorem modifyI_succ (st : St) (j : Nat) (f : Inode → Inode) :
    modifyI st (j + 1) f =
      (match st.inodes.get? j with
        | some n => St.mk (st.inodes.set j (f n))
        | none => st) := rfl

theorem getI_modifyI (st : St) (i : Nat) (f : Inode → Inode) (k : Nat) :
    getI (modifyI st i f) k =
      if k = i then (getI st i).map f else getI st k := by
  cases i with
  | zero =>
    show getI st k = if k = 0 then Option.map f none else getI st k
    cases k with
    | zero => simp [getI]
    | succ m => simp
  | succ j =>
    rw [modifyI_succ]
    cases hg : st.inodes.get? j with
    | none =>
      cases k with
      | zero => simp [getI]
      | succ m =>
        show st.inodes.get? m =
          if m + 1 = j + 1 then Option.map f (st.inodes.get? j)
          else st.inodes.get? m
        by_cases hm : m = j
        · subst hm
          rw [if_pos rfl, hg]
          simp [hg]
        · rw [if_neg (by omega : ¬ m + 1 = j + 1)]
    | some n =>
      cases k with
      | zero => simp [getI]
      | succ m =>
        show (st.inodes.set j (f n)).get? m =
          if m + 1 = j + 1 then Option.map f (st.inodes.get? j)
          else st.inodes.get? m
        by_cases hm : m = j
        · subst hm
          rw [if_pos rfl, get?_set_self, hg]
          rfl
        · rw [if_neg (by omega : ¬ m + 1 = j + 1)]
          exact get?_set_ne _ _ _ _ (by omega)

theorem length_modifyI (st : St) (i : Nat) (f : Inode → Inode) :
    (modifyI st i f).inodes.length = st.inodes.length := by
  cases i with
  | zero => rfl
  | succ j =>
    rw [modifyI_succ]
    cases st.inodes.get? j with
    | none => rfl
    | some n => simp

theorem getI_isSome_iff (st : St) (k : Nat) :
    (getI st k).isSome = true ↔ 1 ≤ k ∧ k ≤ st.inodes.length := by
  cases k with
  | zero => simp [getI]
  | succ m =>
    rw [getI_succ]
    cases hg : st.inodes.get? m with
    | none =>
      have hlen := List.get?_eq_none.mp hg
      simp only [Option.isSome_none]
      constructor
      · intro h; exact Bool.noConfusion h
      · intro hk; exfalso; omega
    | some n =>
      have hlt := (List.get?_eq_some.mp hg).1
      simp only [Option.isSome_some]
      constructor
      · intro _; omega
      · intro _; trivial

/-! ## Counting lemmas -/

theorem cnt_append (d1 d2 : List (List Char × Nat)) (c : Nat) :
    cnt (d1 ++ d2) c = cnt d1 c + cnt d2 c := by
  simp [cnt, List.filter_append]

theorem cnt_cons (e : List Char × Nat) (d : List (List Char × Nat)) (c : Nat) :
    cnt (e :: d) c = (if e.2 = c then 1 else 0) + cnt d c := by
  by_cases hc : e.2 = c
  · simp [cnt, List.filter_cons, hc, Nat.add_comm]
  · simp [cnt, List.filter_cons, hc]

theorem cnt_take_drop (d : List (List Char × Nat)) (x c : Nat) :
    cnt (d.take x) c + cnt (d.drop x) c = cnt d c := by
  rw [← cnt_append, List.take_append_drop]

theorem cnt_insAt (d : List (List Char × Nat)) (x : Nat)
    (e : List Char × Nat) (c : Nat) :
    cnt (insAt d x e) c = cnt d c + (if e.2 = c then 1 else 0) := by
  unfold insAt
  rw [cnt_append, cnt_cons, ← cnt_take_drop d x c]
  omega

theorem eq_take_cons_drop {a : Type} (d : List a) (x : Nat) (e : a)
    (h : d.get? x = some e) : d = d.take x ++ e :: d.drop (x + 1) := by
  induction d generalizing x with
  | nil => simp at h
  | cons y t ih =>
    cases x with
    | zero =>
      simp only [List.get?] at h
      injection h with h
      subst h
      simp
    | succ m =>
      simp only [List.get?] at h
      have := ih m h
      simp only [List.take_succ_cons, List.drop_succ_cons, List.cons_append]
      exact congrArg _ this

theorem cnt_setAt (d : List (List Char × Nat)) (x : Nat)
    (e old : List Char × Nat) (c : Nat) (h : d.get? x = some old) :
    cnt (setAt d x e) c + (if old.2 = c then 1 else 0) =
      cnt d c + (if e.2 = c then 1 else 0) := by
  have hd := eq_take_cons_drop d x old h
  unfold setAt
  conv_rhs => rw [hd]
  rw [cnt_append, cnt_cons, cnt_append, cnt_cons]
  omega

theorem cnt_delAt (d : List (List Char × Nat)) (x : Nat)
    (old : List Char × Nat) (c : Nat) (h : d.get? x = some old) :
    cnt (delAt d x) c + (if old.2 = c then 1 else 0) = cnt d c := by
  have hd := eq_take_cons_drop d x old h
  unfold delAt
  conv_rhs => rw [hd]
  rw [cnt_append, cnt_append, cnt_cons]
  omega

theorem cnt_pos_of_mem (d : List (List Char × Nat)) (e : List Char × Nat)
    (he : e ∈ d) (c : Nat) (hc : e.2 = c) : 1 ≤ cnt d c := by
  induction d with
  | nil => simp at he
  | cons y t ih =>
    rw [cnt_cons]
    rcases List.mem_cons.mp he with h | h
    · subst h; rw [if_pos hc]; omega
    · have := ih h; omega

theorem entryCountL_append (l1 l2 : List Inode) (c : Nat) :
    entryCountL (l1 ++ l2) c = entryCountL l1 c + entryCountL l2 c := by
  induction l1 with
  | nil => simp [entryCountL]
  | cons n t ih => simp [entryCountL, ih]; omega

theorem entryCountL_set (l : List Inode) (j : Nat) (n x : Inode) (c : Nat)
    (h : l.get? j = some n) :
    entryCountL (l.set j x) c + cnt n.dir c =
      entryCountL l c + cnt x.dir c := by
  induction l generalizing j with
  | nil => simp at h
  | cons y t ih =>
    cases j with
    | zero =>
      simp only [List.get?] at h
      injection h with h
      subst h
      simp [entryCountL]
      omega
    | succ m =>
      simp only [List.get?] at h
      have := ih m h
      simp only [List.set, entryCountL]
      omega

theorem entryCountL_ge (l : List Inode) (j : Nat) (n : Inode) (c : Nat)
    (h : l.get? j = some n) : cnt n.dir c ≤ entryCountL l c := by
  induction l generalizing j with
  | nil => simp at h
  | cons y t ih =>
    cases j with
    | zero =>
      simp only [List.get?] at h
      injection h with h
      subst h
      simp [entryCountL]
    | succ m =>
      simp only [List.get?] at h
      have := ih m h
      simp only [entryCountL]
      omega

theorem entryCount_modifyI (st : St) (i : Nat) (f : Inode → Inode)
    (c : Nat) (n : Inode) (h : getI st i = some n) :
    entryCount (modifyI st i f) c + cnt n.dir c =
      entryCount st c + cnt (f n).dir c := by
  cases i with
  | zero => exact Option.noConfusion h
  | succ j =>
    rw [getI_succ] at h
    rw [modifyI_succ, h]
    exact entryCountL_set st.inodes j n (f n) c h

theorem entryCount_modifyI_dirpres (st : St) (i : Nat) (f : Inode → Inode)
    (c : Nat) (hf : ∀ n, (f n).dir = n.dir) :
    entryCount (modifyI st i f) c = entryCount st c := by
  cases hg : getI st i with
  | none =>
    cases i with
    | zero => rfl
    | succ j =>
      rw [getI_succ] at hg
      rw [modifyI_succ, hg]
  | some n =>
    have := entryCount_modifyI st i f c n hg
    rw [hf n] at this
    omega

theorem entryCount_countUp (st : St) (i c : Nat) :
    entryCount (countUp st i) c = entryCount st c :=
  entryCount_modifyI_dirpres st i _ c (fun _ => rfl)

theorem entryCount_countDown (st : St) (i c : Nat) :
    entryCount (countDown st i) c = entryCount st c :=
  entryCount_modifyI_dirpres st i _ c (fun _ => rfl)

/-! ## Membership and bound lemmas -/

theorem getI_mem (st : St) (i : Nat) (m : Inode) (h : getI st i = some m) :
    m ∈ st.inodes := by
  cases i with
  | zero => exact Option.noConfusion h
  | succ j => exact List.get?_mem h

theorem entryCount_ge_cnt (st : St) (i : Nat) (n : Inode) (c : Nat)
    (h : getI st i = some n) : cnt n.dir c ≤ entryCount st c := by
  cases i with
  | zero => exact Option.noConfusion h
  | succ j => exact entryCountL_ge st.inodes j n c h

theorem mem_modifyI (st : St) (i : Nat) (f : Inode → Inode) (n' : Inode)
    (h : n' ∈ (modifyI st i f).inodes) :
    n' ∈ st.inodes ∨ ∃ m, getI st i = some m ∧ n' = f m := by
  cases i with
  | zero => exact Or.inl h
  | succ j =>
    rw [modifyI_succ] at h
    cases hg : st.inodes.get? j with
    | none => rw [hg] at h; exact Or.inl h
    | some m =>
      rw [hg] at h
      rcases List.mem_or_eq_of_mem_set h with h1 | h1
      · exact Or.inl h1
      · exact Or.inr ⟨m, by rw [getI_succ, hg], h1⟩

theorem mem_insAt (d : List (List Char × Nat)) (x : Nat)
    (e a : List Char × Nat) (h : a ∈ insAt d x e) : a ∈ d ∨ a = e := by
  unfold insAt at h
  rcases List.mem_append.mp h with h1 | h1
  · exact Or.inl (List.take_subset x d h1)
  · rcases List.mem_cons.mp h1 with h2 | h2
    · exact Or.inr h2
    · exact Or.inl (List.drop_subset x d h2)

theorem mem_setAt (d : List (List Char × Nat)) (x : Nat)
    (e a : List Char × Nat) (h : a ∈ setAt d x e) : a ∈ d ∨ a = e := by
  unfold setAt at h
  rcases List.mem_append.mp h with h1 | h1
  · exact Or.inl (List.take_subset x d h1)
  · rcases List.mem_cons.mp h1 with h2 | h2
    · exact Or.inr h2
    · exact Or.inl (List.drop_subset (x + 1) d h2)

theorem mem_delAt (d : List (List Char × Nat)) (x : Nat)
    (a : List Char × Nat) (h : a ∈ delAt d x) : a ∈ d := by
  unfold delAt at h
  rcases List.mem_append.mp h with h1 | h1
  · exact List.take_subset x d h1
  · exact List.drop_subset (x + 1) d h1

/-! ## Link-count conservation: preservation lemmas -/

theorem Inv_linki (st : St) (dino x : Nat) (e : List Char × Nat) (n : Inode)
    (hInv : Inv st) (hd : getI st dino = some n)
    (he1 : 1 ≤ e.2) (he2 : e.2 ≤ st.inodes.length) :
    Inv (linki st dino x e) := by
  obtain ⟨hC, hV⟩ := hInv
  have hEC : ∀ c, entryCount (linki st dino x e) c =
      entryCount st c + (if e.2 = c then 1 else 0) := by
    intro c
    unfold linki
    rw [entryCount_countUp]
    have h0 := entryCount_modifyI st dino
      (fun m => { m with dir := insAt m.dir x e }) c n hd
    simp only at h0
    rw [cnt_insAt] at h0
    omega
  have hLen : (linki st dino x e).inodes.length = st.inodes.length := by
    unfold linki countUp
    rw [length_modifyI, length_modifyI]
  constructor
  · intro i m hm
    rw [hEC i]
    unfold linki countUp at hm
    rw [getI_modifyI] at hm
    by_cases hie : i = e.2
    · rw [if_pos hie] at hm
      rw [getI_modifyI] at hm
      by_cases h2d : e.2 = dino
      · rw [if_pos h2d, hd] at hm
        simp only [Option.map_some'] at hm
        injection hm with hm
        have hcn := hC dino n hd
        rw [← hm]
        simp only
        rw [hie, h2d, if_pos rfl]
        omega
      · rw [if_neg h2d] at hm
        cases hg : getI st e.2 with
        | none => rw [hg] at hm; exact Option.noConfusion hm
        | some m0 =>
          rw [hg] at hm
          simp only [Option.map_some'] at hm
          injection hm with hm
          have hcn := hC e.2 m0 hg
          rw [← hm]
          simp only
          rw [hie, if_pos rfl]
          omega
    · rw [if_neg hie] at hm
      rw [getI_modifyI] at hm
      by_cases hid : i = dino
      · rw [if_pos hid, hd] at hm
        simp only [Option.map_some'] at hm
        injection hm with hm
        have hcn := hC dino n hd
        rw [← hm]
        simp only
        rw [if_neg (fun hh => hie (by omega)), hid]
        omega
      · rw [if_neg hid] at hm
        have hcn := hC i m hm
        rw [if_neg (fun hh => hie (by omega))]
        omega
  · intro n' hn' e' he'
    rw [hLen]
    unfold linki countUp at hn'
    rcases mem_modifyI _ _ _ _ hn' with h1 | ⟨m1, _, hm1⟩
    · rcases mem_modifyI _ _ _ _ h1 with h2 | ⟨m2, hm2g, hm2⟩
      · exact hV n' h2 e' he'
      · subst hm2
        simp only at he'
        rcases mem_insAt _ _ _ _ he' with h3 | h3
        · exact hV m2 (getI_mem st dino m2 hm2g) e' h3
        · subst h3; exact ⟨he1, he2⟩
    · subst hm1
      simp only at he'
      rcases mem_modifyI _ _ _ _ (getI_mem _ _ _ (by assumption)) with h2 | ⟨m2, hm2g, hm2⟩
      · exact hV m1 h2 e' he'
      · subst hm2
        simp only at he'
        rcases mem_insAt _ _ _ _ he' with h3 | h3
        · exact hV m2 (getI_mem st dino m2 hm2g) e' h3
        · subst h3; exact ⟨he1, he2⟩

theorem Inv_linkswapi (st : St) (dino x : Nat) (e : List Char × Nat)
    (n : Inode) (old : List Char × Nat)
    (hInv : Inv st) (hd : getI st dino = some n)
    (hx : n.dir.get? x = some old)
    (he1 : 1 ≤ e.2) (he2 : e.2 ≤ st.inodes.length) :
    Inv (linkswapi st dino x e) := by
  obtain ⟨hC, hV⟩ := hInv
  have holdmem : old ∈ n.dir := List.get?_mem hx
  have holdb := hV n (getI_mem st dino n hd) old holdmem
  obtain ⟨nold, hold⟩ : ∃ v, getI st old.2 = some v := by
    have := (getI_isSome_iff st old.2).mpr holdb
    exact Option.isSome_iff_exists.mp this
  have holdpos : 1 ≤ entryCount st old.2 :=
    le_trans (cnt_pos_of_mem n.dir old holdmem old.2 rfl)
      (entryCount_ge_cnt st dino n old.2 hd)
  have hswap : linkswapi st dino x e =
      countUp (modifyI (countDown st old.2) dino
        (fun m => { m with dir := setAt m.dir x e })) e.2 := by
    unfold linkswapi
    rw [hd]
    show (match n.dir.get? x with
      | none => st
      | some o => countUp (modifyI (countDown st o.2) dino
          (fun m => { m with dir := setAt m.dir x e })) e.2) = _
    rw [hx]
  rw [hswap]
  have hEC : ∀ c, entryCount (countUp (modifyI (countDown st old.2) dino
      (fun m => { m with dir := setAt m.dir x e })) e.2) c +
      (if old.2 = c then 1 else 0) =
      entryCount st c + (if e.2 = c then 1 else 0) := by
    intro c
    rw [entryCount_countUp]
    have hd0 : getI (countDown st old.2) dino =
        (if dino = old.2 then (getI st old.2).map
          (fun v => { v with nlink := v.nlink - 1 }) else getI st dino) := by
      unfold countDown
      rw [getI_modifyI]
    by_cases hdo : dino = old.2
    · rw [if_pos hdo, hold] at hd0
      simp only [Option.map_some'] at hd0
      have h0 := entryCount_modifyI (countDown st old.2) dino
        (fun m => { m with dir := setAt m.dir x e }) c _ hd0
      simp only at h0
      have hnd : nold.dir = n.dir := by
        rw [hdo] at hd
        rw [hd] at hold
        injection hold with hh
        rw [hh]
      rw [hnd] at h0
      have h1 := cnt_setAt n.dir x e old c hx
      have h2 := entryCount_countDown st old.2 c
      omega
    · rw [if_neg hdo] at hd0
      rw [hd] at hd0
      have h0 := entryCount_modifyI (countDown st old.2) dino
        (fun m => { m with dir := setAt m.dir x e }) c _ hd0
      simp only at h0
      have h1 := cnt_setAt n.dir x e old c hx
      have h2 := entryCount_countDown st old.2 c
      omega
  have hLen : (countUp (modifyI (countDown st old.2) dino
      (fun m => { m with dir := setAt m.dir x e })) e.2).inodes.length =
      st.inodes.length := by
    unfold countUp countDown
    rw [length_modifyI, length_modifyI, length_modifyI]
  constructor
  · intro i m hm
    have hec := hEC i
    unfold countUp at hm
    rw [getI_modifyI] at hm
    by_cases hA : i = e.2
    · rw [if_pos hA] at hm
      rw [getI_modifyI] at hm
      by_cases hB : e.2 = dino
      · rw [if_pos hB] at hm
        unfold countDown at hm
        rw [getI_modifyI] at hm
        by_cases hC2 : dino = old.2
        · rw [if_pos hC2, hold] at hm
          simp only [Option.map_some'] at hm
          injection hm with hm
          rw [if_pos (show old.2 = i by omega),
            if_pos (show e.2 = i by omega)] at hec
          have hcn := hC old.2 nold hold
          rw [show entryCount st i = entryCount st old.2 by
            rw [hA, hB, hC2]] at hec
          rw [← hm]
          simp only
          omega
        · rw [if_neg hC2, hd] at hm
          simp only [Option.map_some'] at hm
          injection hm with hm
          rw [if_neg (show ¬ old.2 = i by omega),
            if_pos (show e.2 = i by omega)] at hec
          have hcn := hC dino n hd
          rw [show entryCount st i = entryCount st dino by
            rw [hA, hB]] at hec
          rw [← hm]
          simp only
          omega
      · rw [if_neg hB] at hm
        unfold countDown at hm
        rw [getI_modifyI] at hm
        by_cases hC2 : e.2 = old.2
        · rw [if_pos hC2, hold] at hm
          simp only [Option.map_some'] at hm
          injection hm with hm
          rw [if_pos (show old.2 = i by omega),
            if_pos (show e.2 = i by omega)] at hec
          have hcn := hC old.2 nold hold
          rw [show entryCount st i = entryCount st old.2 by
            rw [hA, hC2]] at hec
          rw [← hm]
          simp only
          omega
        · rw [if_neg hC2] at hm
          cases hg : getI st e.2 with
          | none => rw [hg] at hm; exact Option.noConfusion hm
          | some v =>
            rw [hg] at hm
            simp only [Option.map_some'] at hm
            injection hm with hm
            rw [if_neg (show ¬ old.2 = i by omega),
              if_pos (show e.2 = i by omega)] at hec
            have hcn := hC e.2 v hg
            rw [show entryCount st i = entryCount st e.2 by rw [hA]] at hec
            rw [← hm]
            simp only
            omega
    · rw [if_neg hA] at hm
      rw [getI_modifyI] at hm
      by_cases hB : i = dino
      · rw [if_pos hB] at hm
        unfold countDown at hm
        rw [getI_modifyI] at hm
        by_cases hC2 : dino = old.2
        · rw [if_pos hC2, hold] at hm
          simp only [Option.map_some'] at hm
          injection hm with hm
          rw [if_pos (show old.2 = i by omega),
            if_neg (show ¬ e.2 = i by omega)] at hec
          have hcn := hC old.2 nold hold
          rw [show entryCount st i = entryCount st old.2 by
            rw [hB, hC2]] at hec
          rw [← hm]
          simp only
          omega
        · rw [if_neg hC2, hd] at hm
          simp only [Option.map_some'] at hm
          injection hm with hm
          rw [if_neg (show ¬ old.2 = i by omega),
            if_neg (show ¬ e.2 = i by omega)] at hec
          have hcn := hC dino n hd
          rw [show entryCount st i = entryCount st dino by rw [hB]] at hec
          rw [← hm]
          simp only
          omega
      · rw [if_neg hB] at hm
        unfold countDown at hm
        rw [getI_modifyI] at hm
        by_cases hC2 : i = old.2
        · rw [if_pos hC2, hold] at hm
          simp only [Option.map_some'] at hm
          injection hm with hm
          rw [if_pos (show old.2 = i by omega),
            if_neg (show ¬ e.2 = i by omega)] at hec
          have hcn := hC old.2 nold hold
          rw [show entryCount st i = entryCount st old.2 by rw [hC2]] at hec
          rw [← hm]
          simp only
          omega
        · rw [if_neg hC2] at hm
          rw [if_neg (show ¬ old.2 = i by omega),
            if_neg (show ¬ e.2 = i by omega)] at hec
          have hcn := hC i m hm
          omega
  · intro n' hn' e' he'
    rw [hLen]
    unfold countUp at hn'
    rcases mem_modifyI _ _ _ _ hn' with h1 | ⟨m1, hm1g, hm1⟩
    case _ =>
      rcases mem_modifyI _ _ _ _ h1 with h2 | ⟨m2, hm2g, hm2⟩
      case _ =>
        unfold countDown at h2
        rcases mem_modifyI _ _ _ _ h2 with h3 | ⟨m3, hm3g, hm3⟩
        · exact hV n' h3 e' he'
        · subst hm3
          simp only at he'
          exact hV m3 (getI_mem _ _ _ hm3g) e' he'
      case _ =>
        subst hm2
        simp only at he'
        rcases mem_setAt _ _ _ _ he' with h3 | h3
        · have hm2mem := getI_mem _ _ _ hm2g
          unfold countDown at hm2mem
          rcases mem_modifyI _ _ _ _ hm2mem with h4 | ⟨m4, hm4g, hm4⟩
          · exact hV m2 h4 e' h3
          · subst hm4
            simp only at h3
            exact hV m4 (getI_mem _ _ _ hm4g) e' h3
        · subst h3; exact ⟨he1, he2⟩
    case _ =>
      subst hm1
      simp only at he'
      have hm1mem := getI_mem _ _ _ hm1g
      rcases mem_modifyI _ _ _ _ hm1mem with h2 | ⟨m2, hm2g, hm2⟩
      case _ =>
        unfold countDown at h2
        rcases mem_modifyI _ _ _ _ h2 with h3 | ⟨m3, hm3g, hm3⟩
        · exact hV m1 h3 e' he'
        · subst hm3
          simp only at he'
          exact hV m3 (getI_mem _ _ _ hm3g) e' he'
      case _ =>
        subst hm2
        simp only at he'
        rcases mem_setAt _ _ _ _ he' with h3 | h3
        · have hm2mem := getI_mem _ _ _ hm2g
          unfold countDown at hm2mem
          rcases mem_modifyI _ _ _ _ hm2mem with h4 | ⟨m4, hm4g, hm4⟩
          · exact hV m2 h4 e' h3
          · subst hm4
            simp only at h3
            exact hV m4 (getI_mem _ _ _ hm4g) e' h3
        · subst h3; exact ⟨he1, he2⟩
theorem Inv_unlinki (st : St) (dino x : Nat) (n : Inode)
    (e0 : List Char × Nat) (hInv : Inv st) (hd : getI st dino = some n)
    (hx : n.dir.get? x = some e0) :
    Inv (unlinki st dino x) := by
  obtain ⟨hC, hV⟩ := hInv
  have he0mem : e0 ∈ n.dir := List.get?_mem hx
  have he0b := hV n (getI_mem st dino n hd) e0 he0mem
  obtain ⟨ne0, he0⟩ : ∃ v, getI st e0.2 = some v := by
    have := (getI_isSome_iff st e0.2).mpr he0b
    exact Option.isSome_iff_exists.mp this
  have he0pos : 1 ≤ entryCount st e0.2 :=
    le_trans (cnt_pos_of_mem n.dir e0 he0mem e0.2 rfl)
      (entryCount_ge_cnt st dino n e0.2 hd)
  have hun : unlinki st dino x =
      modifyI (countDown st e0.2) dino
        (fun m => { m with dir := delAt m.dir x }) := by
    unfold unlinki
    rw [hd]
    show (match n.dir.get? x with
      | none => st
      | some e =>
        modifyI (countDown st e.2) dino
          (fun m => { m with dir := delAt m.dir x })) = _
    rw [hx]
  rw [hun]
  have hd0 : getI (countDown st e0.2) dino =
      (if dino = e0.2 then (getI st e0.2).map
        (fun v => { v with nlink := v.nlink - 1 }) else getI st dino) := by
    unfold countDown
    rw [getI_modifyI]
  have hEC : ∀ c, entryCount (modifyI (countDown st e0.2) dino
      (fun m => { m with dir := delAt m.dir x })) c +
      (if e0.2 = c then 1 else 0) = entryCount st c := by
    intro c
    by_cases hdo : dino = e0.2
    · rw [if_pos hdo, he0] at hd0
      simp only [Option.map_some'] at hd0
      have h0 := entryCount_modifyI (countDown st e0.2) dino
        (fun m => { m with dir := delAt m.dir x }) c _ hd0
      simp only at h0
      have hnd : ne0.dir = n.dir := by
        rw [hdo] at hd
        rw [hd] at he0
        injection he0 with hh
        rw [hh]
      rw [hnd] at h0
      have h1 := cnt_delAt n.dir x e0 c hx
      have h2 := entryCount_countDown st e0.2 c
      omega
    · rw [if_neg hdo] at hd0
      rw [hd] at hd0
      have h0 := entryCount_modifyI (countDown st e0.2) dino
        (fun m => { m with dir := delAt m.dir x }) c _ hd0
      simp only at h0
      have h1 := cnt_delAt n.dir x e0 c hx
      have h2 := entryCount_countDown st e0.2 c
      omega
  have hLen : (modifyI (countDown st e0.2) dino
      (fun m => { m with dir := delAt m.dir x })).inodes.length =
      st.inodes.length := by
    unfold countDown
    rw [length_modifyI, length_modifyI]
  constructor
  · intro i m hm
    have hec := hEC i
    rw [getI_modifyI] at hm
    by_cases hB : i = dino
    · rw [if_pos hB] at hm
      unfold countDown at hm
      rw [getI_modifyI] at hm
      by_cases hC2 : dino = e0.2
      · rw [if_pos hC2, he0] at hm
        simp only [Option.map_some'] at hm
        injection hm with hm
        rw [if_pos (show e0.2 = i by omega)] at hec
        have hcn := hC e0.2 ne0 he0
        rw [show entryCount st i = entryCount st e0.2 by
          rw [hB, hC2]] at hec
        rw [← hm]
        simp only
        omega
      · rw [if_neg hC2, hd] at hm
        simp only [Option.map_some'] at hm
        injection hm with hm
        rw [if_neg (show ¬ e0.2 = i by omega)] at hec
        have hcn := hC dino n hd
        rw [show entryCount st i = entryCount st dino by rw [hB]] at hec
        rw [← hm]
        simp only
        omega
    · rw [if_neg hB] at hm
      unfold countDown at hm
      rw [getI_modifyI] at hm
      by_cases hC2 : i = e0.2
      · rw [if_pos hC2, he0] at hm
        simp only [Option.map_some'] at hm
        injection hm with hm
        rw [if_pos (show e0.2 = i by omega)] at hec
        have hcn := hC e0.2 ne0 he0
        rw [show entryCount st i = entryCount st e0.2 by rw [hC2]] at hec
        rw [← hm]
        simp only
        omega
      · rw [if_neg hC2] at hm
        rw [if_neg (show ¬ e0.2 = i by omega)] at hec
        have hcn := hC i m hm
        omega
  · intro n' hn' e' he'
    rw [hLen]
    rcases mem_modifyI _ _ _ _ hn' with h1 | ⟨m1, hm1g, hm1⟩
    case _ =>
      unfold countDown at h1
      rcases mem_modifyI _ _ _ _ h1 with h2 | ⟨m2, hm2g, hm2⟩
      · exact hV n' h2 e' he'
      · subst hm2
        simp only at he'
        exact hV m2 (getI_mem _ _ _ hm2g) e' he'
    case _ =>
      subst hm1
      simp only at he'
      have h3 := mem_delAt _ _ _ he'
      have hm1mem := getI_mem _ _ _ hm1g
      unfold countDown at hm1mem
      rcases mem_modifyI _ _ _ _ hm1mem with h4 | ⟨m4, hm4g, hm4⟩
      · exact hV m1 h4 e' h3
      · subst hm4
        simp only at h3
        exact hV m4 (getI_mem _ _ _ hm4g) e' h3

theorem entryCountL_eq_zero (l : List Inode) (c : Nat)
    (h : ∀ n ∈ l, ∀ e ∈ n.dir, e.2 ≠ c) : entryCountL l c = 0 := by
  induction l with
  | nil => rfl
  | cons n t ih =>
    simp only [entryCountL]
    have h1 : cnt n.dir c = 0 := by
      unfold cnt
      rw [List.length_eq_zero]
      rw [List.filter_eq_nil]
      intro e he
      simp only [decide_eq_true_eq]
      exact h n (List.mem_cons_self n t) e he
    have h2 : entryCountL t c = 0 :=
      ih (fun n' hn' e he => h n' (List.mem_cons_of_mem n hn') e he)
    omega

theorem Inv_newFile (st : St) (mode : Nat) (hInv : Inv st) :
    Inv (newFile st mode).1 := by
  obtain ⟨hC, hV⟩ := hInv
  have hEC : ∀ c, entryCount (newFile st mode).1 c = entryCount st c := by
    intro c
    unfold newFile entryCount
    simp only
    rw [entryCountL_append]
    simp [entryCountL, cnt]
  constructor
  · intro i m hm
    rw [hEC i]
    cases i with
    | zero => exact Option.noConfusion hm
    | succ j =>
      rw [getI_succ] at hm
      unfold newFile at hm
      simp only at hm
      by_cases hj : j < st.inodes.length
      · rw [List.get?_append hj] at hm
        exact hC (j + 1) m hm
      · by_cases hj2 : j = st.inodes.length
        · subst hj2
          rw [List.get?_concat_length] at hm
          injection hm with hm
          rw [← hm]
          simp only
          have : entryCount st (st.inodes.length + 1) = 0 := by
            unfold entryCount
            apply entryCountL_eq_zero
            intro n hn e he
            have := hV n hn e he
            omega
          rw [this]
        · have : st.inodes.length + 1 ≤ j := by omega
          rw [List.get?_eq_none.mpr (by simp; omega)] at hm
          exact Option.noConfusion hm
  · intro n' hn' e' he'
    unfold newFile at hn'
    simp only at hn'
    rcases List.mem_append.mp hn' with h1 | h1
    · have := hV n' h1 e' he'
      unfold newFile
      simp only [List.length_append, List.length_cons, List.length_nil]
      omega
    · simp only [List.mem_singleton] at h1
      subst h1
      simp only at he'
      exact absurd he' (List.not_mem_nil e')

theorem Inv_modifyI_keep (st : St) (i : Nat) (f : Inode → Inode)
    (hInv : Inv st) (hf : ∀ m, (f m).dir = m.dir ∧ (f m).nlink = m.nlink) :
    Inv (modifyI st i f) := by
  obtain ⟨hC, hV⟩ := hInv
  have hEC : ∀ c, entryCount (modifyI st i f) c = entryCount st c :=
    fun c => entryCount_modifyI_dirpres st i f c (fun m => (hf m).1)
  constructor
  · intro k m hm
    rw [hEC k]
    rw [getI_modifyI] at hm
    by_cases hk : k = i
    · rw [if_pos hk] at hm
      cases hg : getI st i with
      | none => rw [hg] at hm; exact Option.noConfusion hm
      | some m0 =>
        rw [hg] at hm
        simp only [Option.map_some'] at hm
        injection hm with hm
        rw [← hm, (hf m0).2, hk]
        exact hC i m0 hg
    · rw [if_neg hk] at hm
      exact hC k m hm
  · intro n' hn' e' he'
    rw [length_modifyI]
    rcases mem_modifyI _ _ _ _ hn' with h1 | ⟨m1, hm1g, hm1⟩
    · exact hV n' h1 e' he'
    · subst hm1
      rw [(hf m1).1] at he'
      exact hV m1 (getI_mem _ _ _ hm1g) e' he'

theorem length_linki (st : St) (dino x : Nat) (e : List Char × Nat) :
    (linki st dino x e).inodes.length = st.inodes.length := by
  unfold linki countUp
  rw [length_modifyI, length_modifyI]

theorem length_linkswapi (st : St) (dino x : Nat) (e : List Char × Nat) :
    (linkswapi st dino x e).inodes.length = st.inodes.length := by
  unfold linkswapi
  cases getI st dino with
  | none => rfl
  | some n =>
    simp only
    cases n.dir.get? x with
    | none => rfl
    | some old =>
      simp only
      unfold countUp countDown
      rw [length_modifyI, length_modifyI, length_modifyI]

theorem length_unlinki (st : St) (dino x : Nat) :
    (unlinki st dino x).inodes.length = st.inodes.length := by
  unfold unlinki
  cases getI st dino with
  | none => rfl
  | some n =>
    simp only
    cases n.dir.get? x with
    | none => rfl
    | some e =>
      simp only
      unfold countDown
      rw [length_modifyI, length_modifyI]

theorem length_linkOp (st st' : St) (dino : Nat) (name : List Char)
    (cino : Nat) (h : linkOp st dino name cino = Except.ok st') :
    st'.inodes.length = st.inodes.length := by
  unfold linkOp at h
  split at h
  · exact Except.noConfusion h
  · split at h
    · exact Except.noConfusion h
    · dsimp only at h
      split at h
      · split at h
        · injection h with h; subst h; exact length_linkswapi ..
        · injection h with h; subst h; exact length_linki ..
      · injection h with h; subst h; exact length_linki ..

theorem length_applyLink (st : St) (dino : Nat) (name : List Char)
    (cino : Nat) :
    (applyLink st dino name cino).inodes.length = st.inodes.length := by
  unfold applyLink
  cases hop : linkOp st dino name cino with
  | ok s => exact length_linkOp st s dino name cino hop
  | error e => rfl

theorem Inv_linkOp (st st' : St) (dino : Nat) (name : List Char)
    (cino : Nat) (hInv : Inv st) (hc1 : 1 ≤ cino)
    (hc2 : cino ≤ st.inodes.length)
    (h : linkOp st dino name cino = Except.ok st') : Inv st' := by
  unfold linkOp at h
  split at h
  · exact Except.noConfusion h
  · rename_i n hd
    split at h
    · exact Except.noConfusion h
    · dsimp only at h
      split at h
      · rename_i e hx
        split at h
        · injection h with h; subst h
          exact Inv_linkswapi st dino (find n.dir name) (name, cino) n e
            hInv hd hx hc1 hc2
        · injection h with h; subst h
          exact Inv_linki st dino (find n.dir name) (name, cino) n
            hInv hd hc1 hc2
      · injection h with h; subst h
        exact Inv_linki st dino (find n.dir name) (name, cino) n
          hInv hd hc1 hc2

theorem Inv_applyLink (st : St) (dino : Nat) (name : List Char)
    (cino : Nat) (hInv : Inv st) (hc1 : 1 ≤ cino)
    (hc2 : cino ≤ st.inodes.length) :
    Inv (applyLink st dino name cino) := by
  unfold applyLink
  cases hop : linkOp st dino name cino with
  | ok s => exact Inv_linkOp st s dino name cino hInv hc1 hc2 hop
  | error e => exact hInv

theorem Inv_unlinkOp (st st' : St) (dino : Nat) (name : List Char)
    (hInv : Inv st) (h : unlinkOp st dino name = Except.ok st') :
    Inv st' := by
  unfold unlinkOp at h
  split at h
  · exact Except.noConfusion h
  · rename_i n hd
    split at h
    · exact Except.noConfusion h
    · dsimp only at h
      split at h
      · rename_i e hx
        split at h
        · injection h with h; subst h
          exact Inv_unlinki st dino (find n.dir name) n e hInv hd hx
        · exact Except.noConfusion h
      · exact Except.noConfusion h

theorem length_newDir (st : St) (mode : Nat) :
    (newDir st mode).1.inodes.length = st.inodes.length + 1 := by
  unfold newDir
  simp only
  rw [length_applyLink, length_applyLink, length_modifyI]
  unfold newFile
  simp

theorem Inv_newDir (st : St) (mode : Nat) (hInv : Inv st) :
    Inv (newDir st mode).1 := by
  unfold newDir
  simp only
  have h1 := Inv_newFile st mode hInv
  have h2 := Inv_modifyI_keep (newFile st mode).1 (newFile st mode).2
    (fun n => { n with mode := ModeDir ||| andNot mode ModeType }) h1
    (fun m => ⟨rfl, rfl⟩)
  have hlen1 : (modifyI (newFile st mode).1 (newFile st mode).2
      (fun n => { n with mode := ModeDir ||| andNot mode ModeType })).inodes.length =
      st.inodes.length + 1 := by
    rw [length_modifyI]
    unfold newFile
    simp
  have h3 := Inv_applyLink _ (newFile st mode).2 dotC (newFile st mode).2 h2
    (by unfold newFile; simp) (by rw [hlen1]; unfold newFile; simp)
  have hlen2 : (applyLink (modifyI (newFile st mode).1 (newFile st mode).2
      (fun n => { n with mode := ModeDir ||| andNot mode ModeType }))
      (newFile st mode).2 dotC (newFile st mode).2).inodes.length =
      st.inodes.length + 1 := by
    rw [length_applyLink, hlen1]
  exact Inv_applyLink _ (newFile st mode).2 ddotC (newFile st mode).2 h3
    (by unfold newFile; simp) (by rw [hlen2]; unfold newFile; simp)

theorem Inv_stepOp (st : St) (op : SOp) (hInv : Inv st) :
    Inv (stepOp st op) := by
  cases op with
  | alloc mode => exact Inv_newFile st mode hInv
  | mkdir parent name perm =>
    show Inv (match getI st parent with
      | none => st
      | some _ =>
        let p := newDir st perm
        let st2 := applyLink p.1 parent name p.2
        applyLink st2 p.2 ddotC parent)
    cases hp : getI st parent with
    | none => exact hInv
    | some q =>
      show Inv (applyLink (applyLink (newDir st perm).1 parent name
        (newDir st perm).2) (newDir st perm).2 ddotC parent)
      have hpb := (getI_isSome_iff st parent).mp (by rw [hp]; rfl)
      have h1 := Inv_newDir st perm hInv
      have hlen1 := length_newDir st perm
      have h2 := Inv_applyLink (newDir st perm).1 parent name
        (newDir st perm).2 h1
        (by unfold newDir newFile; simp)
        (by rw [hlen1]; unfold newDir newFile; simp)
      have hlen2 : (applyLink (newDir st perm).1 parent name
          (newDir st perm).2).inodes.length = st.inodes.length + 1 := by
        rw [length_applyLink, hlen1]
      refine Inv_applyLink _ (newDir st perm).2 ddotC parent h2 ?_ ?_
      · omega
      · rw [hlen2]; omega
  | link dino name cino =>
    show Inv (match getI st cino with
      | none => st
      | some _ => applyLink st dino name cino)
    cases hp : getI st cino with
    | none => exact hInv
    | some q =>
      show Inv (applyLink st dino name cino)
      have hpb := (getI_isSome_iff st cino).mp (by rw [hp]; rfl)
      exact Inv_applyLink st dino name cino hInv hpb.1 hpb.2
  | unlink dino name =>
    show Inv (match unlinkOp st dino name with
      | Except.ok s => s
      | Except.error _ => st)
    cases hu : unlinkOp st dino name with
    | ok s =>
      show Inv s
      exact Inv_unlinkOp st s dino name hInv hu
    | error e => exact hInv

theorem Inv_rootSt : Inv rootSt := by
  have hval : rootSt.inodes =
      [Inode.mk (ModeDir ||| 0o755) 2 [(dotC, 1), (ddotC, 1)]] := by decide
  constructor
  · intro i m hm
    match i with
    | 0 => exact Option.noConfusion hm
    | 1 =>
      rw [getI_succ, hval] at hm
      simp only [List.get?] at hm
      injection hm with hm
      rw [← hm]
      decide
    | j + 2 =>
      rw [getI_succ, hval] at hm
      simp at hm
  · intro n hn e he
    rw [hval] at hn
    simp only [List.mem_singleton] at hn
    subst hn
    simp only at he
    rcases List.mem_cons.mp he with h | h
    · subst h; exact ⟨by decide, by decide⟩
    · rcases List.mem_cons.mp h with h2 | h2
      · subst h2; exact ⟨by decide, by decide⟩
      · exact absurd h2 (List.not_mem_nil e)

/-- C8 (amended).  After any sequence of mkdir, link and unlink
operations starting from a fresh filesystem's store, every inode's link
count equals the number of directory entries (including `.` and `..`)
that refer to it — in particular every inode reachable from the root.
Recursive unlink (`UnlinkAll`) is excluded: it violates the invariant
(see the counterexample), because it drops the removed directory's `..`
entry without decrementing the parent's link count. -/
theorem mkdir_link_unlink_conserve_link_counts :
    ∀ ops : List SOp, Inv (List.foldl stepOp rootSt ops) := by
  have main : ∀ (ops : List SOp) (st : St), Inv st →
      Inv (List.foldl stepOp st ops) := by
    intro ops
    induction ops with
    | nil => intro st h; exact h
    | cons op rest ih =>
      intro st h
      exact ih (stepOp st op) (Inv_stepOp st op h)
  intro ops
  exact main ops rootSt Inv_rootSt

/-! ## Mode preservation through link operations -/

theorem modeAt_modifyI_keep (st : St) (i : Nat) (f : Inode → Inode)
    (k : Nat) (hf : ∀ m, (f m).mode = m.mode) :
    modeAt (modifyI st i f) k = modeAt st k := by
  unfold modeAt
  rw [getI_modifyI]
  by_cases hk : k = i
  · rw [if_pos hk, hk]
    cases getI st i with
    | none => rfl
    | some m => simp [hf m]
  · rw [if_neg hk]

theorem modeAt_linki (st : St) (dino x : Nat) (e : List Char × Nat)
    (k : Nat) : modeAt (linki st dino x e) k = modeAt st k := by
  unfold linki countUp
  rw [modeAt_modifyI_keep _ e.2
    (fun n => { n with nlink := n.nlink + 1 }) k (fun m => rfl)]
  rw [modeAt_modifyI_keep st dino
    (fun n => { n with dir := insAt n.dir x e }) k (fun m => rfl)]

theorem modeAt_linkswapi (st : St) (dino x : Nat) (e : List Char × Nat)
    (k : Nat) : modeAt (linkswapi st dino x e) k = modeAt st k := by
  unfold linkswapi
  cases getI st dino with
  | none => rfl
  | some n =>
    simp only
    cases n.dir.get? x with
    | none => rfl
    | some old =>
      simp only
      unfold countUp countDown
      rw [modeAt_modifyI_keep _ e.2
        (fun n => { n with nlink := n.nlink + 1 }) k (fun m => rfl)]
      rw [modeAt_modifyI_keep _ dino
        (fun m => { m with dir := setAt m.dir x e }) k (fun m => rfl)]
      rw [modeAt_modifyI_keep st old.2
        (fun n => { n with nlink := n.nlink - 1 }) k (fun m => rfl)]

theorem modeAt_linkOp (st st' : St) (dino : Nat) (name : List Char)
    (cino : Nat) (h : linkOp st dino name cino = Except.ok st') (k : Nat) :
    modeAt st' k = modeAt st k := by
  unfold linkOp at h
  split at h
  · exact Except.noConfusion h
  · split at h
    · exact Except.noConfusion h
    · dsimp only at h
      split at h
      · split at h
        · injection h with h; subst h; exact modeAt_linkswapi ..
        · injection h with h; subst h; exact modeAt_linki ..
      · injection h with h; subst h; exact modeAt_linki ..

theorem modeAt_applyLink (st : St) (dino : Nat) (name : List Char)
    (cino k : Nat) :
    modeAt (applyLink st dino name cino) k = modeAt st k := by
  unfold applyLink
  cases hop : linkOp st dino name cino with
  | ok s => exact modeAt_linkOp st s dino name cino hop k
  | error e => rfl

theorem modeAt_inoNew_self (st : St) (m : Nat) :
    modeAt (inoNew st m).1 (st.inodes.length + 1) = m := by
  unfold modeAt inoNew
  rw [getI_succ]
  simp only
  rw [List.get?_concat_length]

theorem modeAt_inoNewDir_self (st : St) (m : Nat) :
    modeAt (inoNewDir st m).1 (st.inodes.length + 1) = ModeDir ||| m := by
  unfold inoNewDir
  simp only
  rw [modeAt_applyLink, modeAt_applyLink]
  unfold modeAt
  rw [getI_modifyI]
  have : (st.inodes.length + 1 : Nat) = (inoNew st m).2 := rfl
  rw [if_pos this]
  unfold inoNew
  rw [getI_succ]
  simp only
  rw [List.get?_concat_length]
  rfl

/-! ## Claim theorems: concrete counterexamples and bug evidence -/

/-- C1 counterexample: `create("/f")` calls `OpenFile` with `perm = 0644`
on a fresh filesystem whose umask is 0755.  The code allocates the new
inode (ordinal 2) with mode `Umask & perm = 0644`, whereas the claimed
`perm & ~umask` is 0 — so the claim is false at this input. -/
theorem create_mode_not_perm_andnot_umask :
    NewFS.umask = 0o755 ∧
    modeAt (CreateF NewFS ['/', 'f']).1.st 2 = 0o644 ∧
    modeAt (CreateF NewFS ['/', 'f']).1.st 2 ≠ andNot 0o644 NewFS.umask := by
  decide

/-- C2: `fileStat` never terminates on a symlink cycle.  `fsCycle` holds
a symlink `/link` whose recorded target is the literal `/link` (built by
`symlink("/f","/link")` then `symlink("/link","/link")`); the modelled
recursion returns `none` (is still recursing) at every finite depth, so
the unbounded Go recursion of `fileStat` — which has no depth budget,
only a `TODO: Avoid cyclical links` comment — never returns, instead of
failing with `TOO_MANY_LINKS` after 40 dereferences. -/
theorem fileStat_cycle_diverges :
    ∀ fuel, fileStatN fuel fsCycle ['/'] linkNm = none := by
  intro fuel
  induction fuel with
  | zero => rfl
  | succ k ih =>
    have h1 : absG ['/'] linkNm = linkNm := by decide
    have h2 : resolve fsCycle.st 1 (trimSlash linkNm) = some 3 := by decide
    have h4 : dirPath linkNm = ['/'] := by decide
    have h5 : symGet fsCycle.symlinks 3 = linkNm := by decide
    simp only [fileStatN, h1, h2, h4, h5]
    rw [if_neg (by decide : ¬ (modeAt fsCycle.st 3 &&& ModeSymlink = 0))]
    exact ih

/-- C3: after `mkdir("/d")` the directory `/d` holds exactly the entries
`.` and `..`, yet `remove("/d")` fails with NOT_EMPTY, because the code
tests `len(child.Dir) > 0`, which counts `.` and `..`.  No directory is
ever removable by `Remove`, contradicting both the claim and the spec's
scenario 5. -/
theorem remove_empty_dir_fails_not_empty :
    (dirAt fsD.st 2).map Prod.fst = [dotC, ddotC] ∧
    isDirAt fsD.st 2 = true ∧
    (Remove fsD ['/', 'd']).2 = Except.error Err.notEmpty := by
  decide

/-- C4: on the root directory of `fsF` (entries `.`, `..`, `f`) opened
read-only, `readdir(2)` returns 2 entries and advances the cursor to 2,
but the second `readdir(2)` returns 0 entries (slice `dirs[2:2]`) and
advances the cursor to 4 (`f.diroffset += n`), and the third returns
end-of-stream: the entry `f` is never produced, while a single
`readdir(-1)` yields all three.  The cursor advances by `n`, not by the
number of entries returned, refuting the claim (which matches the spec's
intended clamping). -/
theorem readdir_chunks_skip_entries :
    (dirAt fsF.st 1).map Prod.fst = [dotC, ddotC, ['f']] ∧
    (freaddir fsF hRootF 2).1 = PRes.ok [(dotC, 1), (ddotC, 1)] ∧
    (freaddir fsF hRootF 2).2.diroffset = 2 ∧
    (freaddir fsF (freaddir fsF hRootF 2).2 2).1 = PRes.ok [] ∧
    (freaddir fsF (freaddir fsF hRootF 2).2 2).2.diroffset = 4 ∧
    (freaddir fsF (freaddir fsF (freaddir fsF hRootF 2).2 2).2 2).1 =
      PRes.err Err.eof ∧
    (freaddir fsF hRootF (-1)).1 =
      PRes.ok [(dotC, 1), (ddotC, 1), (['f'], 2)] := by
  decide

/-- C5 counterexample: on a fresh filesystem, `symlink("/real", "/link")`
fails with NO_ENTRY because the code resolves the target `oldname` at
creation time and `/real` does not exist — the claim says the call
succeeds with the target recorded unresolved. -/
theorem symlink_dangling_target_rejected :
    (Symlink NewFS ['/', 'r', 'e', 'a', 'l'] linkNm).2 =
      Except.error Err.noEntry := by
  decide

/-- C6 counterexample: `/f` in `fsF` exists and is not a symlink (its
mode has no symlink bit), yet `readlink("/f")` returns the empty string
with no error — the symlink-table map lookup's zero value — instead of
failing with INVALID as claimed. -/
theorem readlink_nonsymlink_returns_empty :
    modeAt fsF.st 2 &&& ModeSymlink = 0 ∧
    Readlink fsF ['/', 'f'] = Except.ok [] := by
  decide

/-- C7 counterexample: after `close()` succeeds on the read-write handle
returned by `create("/g")`, `write` still succeeds (returning 1 byte
written), `seek` and `truncate` still succeed, and `read` / `readdir`
panic on the nil node reference — none of them fails with BAD_FD. -/
theorem closed_handle_ops_not_bad_fd :
    (fclose fsG hG).1 = PRes.ok () ∧
    (fwrite (fclose fsG hG).2.2 [65]).1 = PRes.ok 1 ∧
    (fread (fclose fsG hG).2.1 (fclose fsG hG).2.2 1).1 = PRes.panicked ∧
    (freaddir (fclose fsG hG).2.1 (fclose fsG hG).2.2 1).1 = PRes.panicked ∧
    (fseek (fclose fsG hG).2.2 0 0).1 = PRes.ok 0 ∧
    (ftruncate (fclose fsG hG).2.2 0).1 = PRes.ok () := by
  decide

/-- C8 counterexample: `mkdir("/d")` then the `RemoveAll("/d")` sequence
(`UnlinkAll` on `/d`, then `Unlink("d")` on the root).  `UnlinkAll`
truncates the `..` entry of `/d` (which refers to the root) without
decrementing the root's link count, so afterwards the root — an inode
reachable from the root — has link count 3 while only 2 directory
entries (its own `.` and `..`) refer to it. -/
theorem unlinkAll_breaks_conservation :
    (getI cexSt 1).map Inode.nlink = some 3 ∧
    entryCount cexSt 1 = 2 := by
  decide

/-- C1 (amended).  Every inode allocated by the create path of
`OpenFile` has mode `fs.Umask & perm` (the umask AND-ed with the
caller-supplied permission — not `perm &^ umask`), and every directory
inode allocated by `Mkdir` has mode `ModeDir ||| (fs.Umask & perm)`.
The hypotheses select the creation paths: the target does not resolve,
the parent does, and (for open) the create flag is set. -/
theorem openfile_mkdir_mode_umask_and_perm :
    (∀ (fs : FS) (name : List Char) (flag perm parent : Nat),
      name ≠ ['/'] → name ≠ ['.'] →
      resolve fs.st (if isAbs name then 1 else fs.dirIno) name = none →
      resolve fs.st (if isAbs name then 1 else fs.dirIno)
        (clean (splitPath name).1) = some parent →
      flag &&& O_CREATE ≠ 0 →
      modeAt (OpenFile fs name flag perm).1.st (fs.st.inodes.length + 1) =
        fs.umask &&& perm) ∧
    (∀ (fs : FS) (name : List Char) (perm parent : Nat),
      resolve fs.st (if isAbs name then 1 else fs.dirIno) name = none →
      (if clean (splitPath (if isAbs name then name
          else joinPath fs.cwd name)).1 = ['/'] then some 1
        else resolve fs.st 1 (trimSlash (clean (splitPath (if isAbs name
          then name else joinPath fs.cwd name)).1))) = some parent →
      modeAt (Mkdir fs name perm).1.st (fs.st.inodes.length + 1) =
        ModeDir ||| (fs.umask &&& perm)) := by
  constructor
  · intro fs name flag perm parent h1 h2 hres hpar hcr
    unfold OpenFile
    rw [if_neg h1, if_neg h2]
    dsimp only
    rw [hres, hpar]
    dsimp only
    rw [if_neg (fun hh => hh hcr)]
    cases hlk : linkOp (inoNew fs.st (fs.umask &&& perm)).1 parent
        (splitPath name).2 (inoNew fs.st (fs.umask &&& perm)).2 with
    | error e =>
      dsimp only
      exact modeAt_inoNew_self fs.st (fs.umask &&& perm)
    | ok st2 =>
      dsimp only
      rw [show ((inoNew fs.st (fs.umask &&& perm)).2 : Nat) =
        fs.st.inodes.length + 1 from rfl] at hlk
      rw [modeAt_linkOp (inoNew fs.st (fs.umask &&& perm)).1 st2 parent
        (splitPath name).2 (fs.st.inodes.length + 1) hlk]
      exact modeAt_inoNew_self fs.st (fs.umask &&& perm)
  · intro fs name perm parent hres hpar
    unfold Mkdir
    dsimp only
    rw [hres, hpar]
    dsimp only
    rw [modeAt_applyLink, modeAt_applyLink]
    exact modeAt_inoNewDir_self fs.st (fs.umask &&& perm)

/-- Witness for the amended C1, instantiated at `create("/f")` (flags
`O_CREATE|O_RDWR|O_TRUNC = 578`, perm 0644) and `mkdir("/d", 0777)` on a
fresh filesystem with umask 0755. -/
theorem openfile_mkdir_mode_umask_and_perm_witness :
    modeAt (OpenFile NewFS ['/', 'f'] 578 0o644).1.st 2 = 0o755 &&& 0o644 ∧
    modeAt (Mkdir NewFS ['/', 'd'] 0o777).1.st 2 =
      ModeDir ||| (0o755 &&& 0o777) := by
  constructor
  · exact openfile_mkdir_mode_umask_and_perm.1 NewFS ['/', 'f'] 578 0o644 1
      (by decide) (by decide) (by decide) (by decide) (by decide)
  · exact openfile_mkdir_mode_umask_and_perm.2 NewFS ['/', 'd'] 0o777 1
      (by decide) (by decide)

/-- C5 (amended).  `symlink(target, linkpath)` resolves `target` at
creation time (failing with NO_ENTRY when it does not resolve — see the
counterexample); when the target resolves, `linkpath` does not yet exist,
its parent resolves, and the link insertion succeeds, the call succeeds
and the verbatim `target` string is recorded in the symlink table under
the new inode's ordinal. -/
theorem symlink_records_target_verbatim :
    ∀ (fs : FS) (old new : List Char) (oldNode parent : Nat),
      resolve fs.st (if isAbs new then 1 else fs.dirIno) new = none →
      resolve fs.st (if isAbs new then 1 else fs.dirIno) old =
        some oldNode →
      resolve fs.st (if isAbs new then 1 else fs.dirIno)
        (clean (splitPath new).1) = some parent →
      (linkOp (inoNew fs.st (modeAt fs.st oldNode ||| ModeSymlink)).1
        parent (splitPath new).2 (fs.st.inodes.length + 1)).isOk = true →
      (Symlink fs old new).2 = Except.ok () ∧
      symGet (Symlink fs old new).1.symlinks (fs.st.inodes.length + 1) =
        old := by
  intro fs old new oldNode parent hnew hold hpar hok
  unfold Symlink
  dsimp only
  rw [hnew, hold, hpar]
  dsimp only
  cases hlk : linkOp (inoNew fs.st (modeAt fs.st oldNode ||| ModeSymlink)).1
      parent (splitPath new).2
      (inoNew fs.st (modeAt fs.st oldNode ||| ModeSymlink)).2 with
  | error e =>
    rw [show ((inoNew fs.st (modeAt fs.st oldNode ||| ModeSymlink)).2 : Nat)
      = fs.st.inodes.length + 1 from rfl] at hlk
    rw [hlk] at hok
    exact Bool.noConfusion hok
  | ok st2 =>
    dsimp only
    constructor
    · rfl
    · show symGet (((inoNew fs.st
        (modeAt fs.st oldNode ||| ModeSymlink)).2, old) :: fs.symlinks)
        (fs.st.inodes.length + 1) = old
      unfold symGet List.lookup
      rw [show ((inoNew fs.st
        (modeAt fs.st oldNode ||| ModeSymlink)).2 : Nat) =
        fs.st.inodes.length + 1 from rfl]
      simp

/-- Witness for the amended C5: `symlink("/f", "/link")` on `fsF`
succeeds and records the literal string `/f` under the new ordinal 3. -/
theorem symlink_records_target_verbatim_witness :
    (Symlink fsF ['/', 'f'] linkNm).2 = Except.ok () ∧
    symGet (Symlink fsF ['/', 'f'] linkNm).1.symlinks 3 = ['/', 'f'] :=
  symlink_records_target_verbatim fsF ['/', 'f'] linkNm 2 1
    (by decide) (by decide) (by decide) (by decide)

/-- C6 (amended).  `readlink(name)` returns the symlink-table entry for
every resolvable path — the stored target string for a symlink inode,
and the map's zero value (the empty string) with NO error for a
non-symlink inode; it never fails with INVALID (see the
counterexample). -/
theorem readlink_returns_table_entry :
    ∀ (fs : FS) (name : List Char) (node : Nat),
      name ≠ ['/'] →
      resolve fs.st 1 (trimSlash name) = some node →
      Readlink fs name = Except.ok (symGet fs.symlinks node) := by
  intro fs name node h1 h2
  unfold Readlink
  rw [if_neg h1, h2]

/-- Witness for the amended C6: `readlink("/link")` on `fsLink` returns
the stored target `/f`. -/
theorem readlink_returns_table_entry_witness :
    Readlink fsLink linkNm = Except.ok ['/', 'f'] :=
  readlink_returns_table_entry fsLink linkNm 3 (by decide) (by decide)

/-- C7 (amended).  `Close` clears the handle's node reference and marks
nothing else; afterwards `Read` and `Readdir` dereference the nil node
and crash (panic), while `Write`, `Seek` and `Truncate` never consult
the node and still succeed on the handle's detached buffer, subject only
to the original access-mode checks — no operation fails with BAD_FD on
account of the close. -/
theorem closed_handle_semantics :
    ∀ (fs : FS) (f : FileH) (p : List Nat) (plen : Nat) (k : Int),
      f.node = none →
      (f.flags ≠ 3712 → (fread fs f plen).1 = PRes.panicked) ∧
      (f.flags &&& O_ACCESS ≠ O_WRONLY →
        (freaddir fs f k).1 = PRes.panicked) ∧
      (f.flags &&& O_ACCESS ≠ O_RDONLY → ¬ f.offset < 0 →
        (fwrite f p).1 = PRes.ok p.length) ∧
      (fseek f k 0).1 = PRes.ok (if k < 0 then 0 else k) ∧
      (f.flags &&& O_ACCESS ≠ O_RDONLY → ¬ k < 0 →
        (ftruncate f k).1 = PRes.ok ()) := by
  intro fs f p plen k hnode
  refine ⟨?_, ?_, ?_, ?_, ?_⟩
  · intro hf
    unfold fread
    rw [if_neg hf, hnode]
  · intro hacc
    unfold freaddir
    rw [if_neg hacc, hnode]
  · intro hacc hoff
    unfold fwrite
    rw [if_neg hacc, if_neg hoff]
  · unfold fseek
    dsimp only
    rw [if_pos rfl]
  · intro hacc hk
    unfold ftruncate
    rw [if_neg hacc, if_neg hk]
    dsimp only
    by_cases hsz : k.toNat ≤ f.data.length
    · rw [if_pos hsz]
    · rw [if_neg hsz]

/-- Witness for the amended C7, at the concrete closed handle `hGc`
(flags 578: read-write access): read and readdir panic, write succeeds
returning 1, seek returns 0, truncate succeeds. -/
theorem closed_handle_semantics_witness :
    (fread fsG hGc 1).1 = PRes.panicked ∧
    (freaddir fsG hGc 1).1 = PRes.panicked ∧
    (fwrite hGc [65]).1 = PRes.ok 1 ∧
    (fseek hGc 0 0).1 = PRes.ok 0 ∧
    (ftruncate hGc 0).1 = PRes.ok () := by
  have h := closed_handle_semantics fsG hGc [65] 1 0 (by decide)
  exact ⟨h.1 (by decide), h.2.1 (by decide),
    h.2.2.1 (by decide) (by decide), h.2.2.2.1,
    h.2.2.2.2 (by decide) (by decide)⟩

/-- C10.  `Chmod` assigns the argument as the addressed inode's complete
mode, type bits included: the stored inode keeps its link count and
entries but its mode becomes exactly `mode`, so a mode without the
directory bit makes a former directory a non-directory, and a mode
without the symlink bit clears symlink-ness. -/
theorem chmod_assigns_complete_mode :
    ∀ (fs : FS) (name : List Char) (mode node : Nat) (n : Inode),
      ((absG fs.cwd name = ['/'] ∧ node = 1) ∨
        (absG fs.cwd name ≠ ['/'] ∧
          resolve fs.st 1 (trimSlash (absG fs.cwd name)) = some node)) →
      getI fs.st node = some n →
      (Chmod fs name mode).2 = Except.ok () ∧
      getI (Chmod fs name mode).1.st node = some { n with mode := mode } ∧
      (mode &&& ModeDir = 0 →
        isDirAt (Chmod fs name mode).1.st node = false) := by
  intro fs name mode node n hsel hn
  have hgoal : getI (Chmod fs name mode).1.st node =
      some { n with mode := mode } ∧
      (Chmod fs name mode).2 = Except.ok () := by
    rcases hsel with ⟨habs, hnode⟩ | ⟨habs, hres⟩
    · subst hnode
      unfold Chmod
      rw [if_pos habs]
      dsimp only
      rw [getI_modifyI, if_pos rfl, hn]
      exact ⟨rfl, rfl⟩
    · unfold Chmod
      rw [if_neg habs, hres]
      dsimp only
      rw [getI_modifyI, if_pos rfl, hn]
      exact ⟨rfl, rfl⟩
  refine ⟨hgoal.2, hgoal.1, ?_⟩
  intro hmd
  unfold isDirAt
  rw [hgoal.1]
  unfold isDirI
  simp [hmd]

/-- Witness for C10: `chmod("/d", 0644)` on `fsD` turns the directory
inode 2 into a plain-mode inode; `IsDir` is false afterwards. -/
theorem chmod_assigns_complete_mode_witness :
    getI (Chmod fsD ['/', 'd'] 0o644).1.st 2 =
      some (Inode.mk 0o644 2 [(dotC, 2), (ddotC, 1)]) ∧
    isDirAt (Chmod fsD ['/', 'd'] 0o644).1.st 2 = false := by
  have h := chmod_assigns_complete_mode fsD ['/', 'd'] 0o644 2
    (Inode.mk (ModeDir ||| 0o755) 2 [(dotC, 2), (ddotC, 1)])
    (Or.inr ⟨by decide, by decide⟩) (by decide)
  exact ⟨h.2.1, h.2.2 (by decide)⟩

end Memfs
